import Mathlib

/-!
# Verification of the stoken SecurID core (`src/securid.c`)

This file gives a shallow embedding of the token-handling core in
`src/securid.c` and proves / refutes the frozen claims about it.

Modelling conventions:
* Bytes are `Nat` values; byte buffers and C strings are `List Nat`
  (a C string is the list of its bytes up to the terminating NUL).
* The AES-128-ECB primitive is an external collaborator (the spec places
  the block cipher itself out of scope), so every function that uses it
  takes the cipher as an explicit argument `aes : List Nat → List Nat →
  List Nat` (`aes key block`), and decryption takes `aesdec` likewise.
  A conformant cipher always returns 16 bytes, each `< 256`; theorems
  that need this assume the `GoodCipher` predicate below.
* Out-parameters written through pointers become explicit state passing:
  `securid_decode_token` takes the caller's token record and returns the
  error code together with the final record, mirroring the C mutations.
* `NULL`-able string arguments become `Option (List Nat)`.
-/

/-! ## Constants

`AES_BLOCK_SIZE` .. `FLD_NUMSECONDS_SHIFT` live in `securid.h`, which is
not part of the repository snapshot under verification; the values below
are modelled from the spec (sections 3, 4.3, 6 and the glossary) where it
fixes them.  The ctf layout constants follow the spec's layout table
(version 1 char, 12 serial chars, 189 payload bits at 3 bits per char,
15 checksum bits, total length 71–81).  The numeric positions of the
flag bits are not given by the spec; distinct bits are chosen with the
pinmode field's 2-bit mask stored pre-shifted (`0x03 << shift`), which is
forced by `securid_token_info`'s `(flags & MASK) >> SHIFT` read. -/

def AES_BLOCK_SIZE : Nat := 16
def AES_KEY_SIZE : Nat := 16
def TOKEN_BITS_PER_CHAR : Nat := 3
def VER_CHARS : Nat := 1
def SERIAL_CHARS : Nat := 12
def BINENC_BITS : Nat := 189
def BINENC_OFS : Nat := VER_CHARS + SERIAL_CHARS
def CHECKSUM_BITS : Nat := 15
def CHECKSUM_CHARS : Nat := CHECKSUM_BITS / TOKEN_BITS_PER_CHAR
def CHECKSUM_OFS : Nat := BINENC_OFS + BINENC_BITS / TOKEN_BITS_PER_CHAR
def MIN_TOKEN_CHARS : Nat := 71
def MAX_TOKEN_CHARS : Nat := 81
def MAX_TOKEN_BITS : Nat := 255
def MAX_PASS : Nat := 40
def DEVID_CHARS : Nat := 40
def MAGIC_LEN : Nat := 7
def MIN_PIN : Nat := 4
def MAX_PIN : Nat := 8
def SECURID_EPOCH : Int := 946684800

/-- Modelled from the spec: flag bit layout of the 16-bit `flags` field
(`securid.h` is missing from `src/`).  `PASSPROT` and `SNPROT` are
distinct single bits; the 2-bit `pinmode` field sits at shift 3 with a
pre-shifted mask, as `securid_token_info` requires. -/
def FL_128BIT : Nat := 0x4000
def FL_PASSPROT : Nat := 0x2000
def FL_SNPROT : Nat := 0x1000
def FL_FEAT3 : Nat := 0x0800
def FL_FEAT4 : Nat := 0x0400
def FL_FEAT5 : Nat := 0x0200
def FL_FEAT6 : Nat := 0x0100
def FLD_DIGIT_SHIFT : Nat := 6
def FLD_DIGIT_MASK : Nat := 0x07 <<< FLD_DIGIT_SHIFT
def FLD_PINMODE_SHIFT : Nat := 3
def FLD_PINMODE_MASK : Nat := 0x03 <<< FLD_PINMODE_SHIFT
def FLD_NUMSECONDS_SHIFT : Nat := 0
def FLD_NUMSECONDS_MASK : Nat := 0x03 <<< FLD_NUMSECONDS_SHIFT

/-- Error codes of `securid.h` (named, numeric values irrelevant). -/
inductive SecuridErr where
  | none
  | general
  | bad_len
  | bad_password
  | missing_password
  | bad_devid
  | checksum_failed
  | token_version
  | decrypt_failed
deriving DecidableEq, Repr

deriving instance DecidableEq for Except

/-- `struct securid_token`.  C strings (`serial`, `pin`) are byte lists;
fixed 16-byte arrays (`enc_seed`, `dec_seed`) are byte lists too. -/
structure SecuridToken where
  serial : List Nat
  enc_seed : List Nat
  dec_seed : List Nat
  has_enc_seed : Bool
  has_dec_seed : Bool
  flags : Nat
  exp_date : Nat
  dec_seed_hash : Nat
  device_id_hash : Nat
  pin : List Nat
  is_smartphone : Bool
  pinmode : Nat
deriving DecidableEq, Repr

/-- The token record after `memset(t, 0, sizeof(*t))`. -/
def zeroToken : SecuridToken :=
  { serial := [], enc_seed := List.replicate 16 0, dec_seed := List.replicate 16 0,
    has_enc_seed := false, has_dec_seed := false, flags := 0, exp_date := 0,
    dec_seed_hash := 0, device_id_hash := 0, pin := [], is_smartphone := false,
    pinmode := 0 }

/-- Broken-down UTC time, the relevant fields of `struct tm` delivered by
the external `gmtime` collaborator (raw `tm_` conventions: `tm_year` is
years since 1900, `tm_mon` is 0-based). -/
structure TmTime where
  tm_year : Nat
  tm_mon : Nat
  tm_mday : Nat
  tm_hour : Nat
  tm_min : Nat
deriving DecidableEq, Repr

/-- `isdigit` from ctype, on byte values. -/
def c_isdigit (c : Nat) : Bool := 48 ≤ c && c ≤ 57

/-- `isxdigit` from ctype, on byte values. -/
def c_isxdigit (c : Nat) : Bool :=
  c_isdigit c || (65 ≤ c && c ≤ 70) || (97 ≤ c && c ≤ 102)

/-! ## The custom MAC (`securid_mac`, lines 71–122) -/

/-- `encrypt_then_xor(key, work, enc)`: `enc := AES-ECB(key, work)`;
`work ^= enc` (lines 71–78).  Returns the new `work`. -/
def encrypt_then_xor (aes : List Nat → List Nat → List Nat)
    (key work : List Nat) : List Nat :=
  List.zipWith Nat.xor work (aes key work)

/-- The 16-byte padding block of `securid_mac` (lines 91–94): the bit
length `in_len * 8` is written big-endian into the low bytes, the
remaining high bytes are the zeroes of the initial `memset`.  Closed
form of the `for (i = in_len * 8; i > 0; i >>= 8)` loop. -/
def mac_pad (in_len : Nat) : List Nat :=
  (List.range 16).map (fun j => ((in_len * 8) >>> (8 * (15 - j))) &&& 0xff)

/-- The bulk loop of `securid_mac` (line 97):
`for (; in_len > incr; in_len -= incr, in += incr, odd = !odd)`.
Structured recursion over a fuel counter so that the definition reduces
in the kernel; the fuel is the input length at the call site, which
bounds the number of iterations.  Returns the remaining input, the
updated `work`, and the parity flag. -/
def securid_mac_loop (aes : List Nat → List Nat → List Nat) :
    Nat → List Nat → List Nat → Bool → List Nat × List Nat × Bool
  | 0, input, work, odd => (input, work, odd)
  | fuel + 1, input, work, odd =>
    if 16 < input.length then
      securid_mac_loop aes fuel (input.drop 16)
        (encrypt_then_xor aes (input.take 16) work) (!odd)
    else (input, work, odd)

/-- `securid_mac(in, in_len, out)` (lines 80–114). -/
def securid_mac (aes : List Nat → List Nat → List Nat)
    (input : List Nat) : List Nat :=
  let pad := mac_pad input.length
  let r := securid_mac_loop aes input.length input (List.replicate 16 0xff) false
  let rest := r.1
  let work1 := r.2.1
  let odd := r.2.2
  -- final 0-16 bytes of input data, zero padded by the memset of lastblk
  let lastblk := rest ++ List.replicate (16 - rest.length) 0
  let work2 := encrypt_then_xor aes lastblk work1
  -- hash an extra block of zeroes, for certain input lengths
  let work3 := if odd then encrypt_then_xor aes (List.replicate 16 0) work2 else work2
  -- always hash the padding
  let work4 := encrypt_then_xor aes pad work3
  -- run hash over current hash value, then return
  List.zipWith Nat.xor work4 (aes work4 work4)

/-- `securid_shortmac(in, in_len)` (lines 116–122). -/
def securid_shortmac (aes : List Nat → List Nat → List Nat)
    (input : List Nat) : Nat :=
  let hash := securid_mac aes input
  (hash.getD 0 0 <<< 7) ||| (hash.getD 1 0 >>> 1)

/-- Modelled from the claim C1 / spec §4.2 steps 3–6, word for word, for
refinement comparison with `securid_mac`: absorb *every* full 16-byte
input block, then the final partial (possibly empty) block zero-padded
to 16 bytes, then one extra all-zero block iff the number of full-block
absorptions (the count tracked in step 3) is odd, then the padding
block, then the tightening step. -/
def securid_mac_claimed (aes : List Nat → List Nat → List Nat)
    (input : List Nat) : List Nat :=
  let nFull := input.length / 16
  let work1 := (List.range nFull).foldl
    (fun w j => encrypt_then_xor aes ((input.drop (16 * j)).take 16) w)
    (List.replicate 16 0xff)
  let finalBlk := input.drop (16 * nFull) ++
    List.replicate (16 - (input.length - 16 * nFull)) 0
  let work2 := encrypt_then_xor aes finalBlk work1
  let work3 := if nFull % 2 = 1 then encrypt_then_xor aes (List.replicate 16 0) work2
               else work2
  let work4 := encrypt_then_xor aes (mac_pad input.length) work3
  List.zipWith Nat.xor work4 (aes work4 work4)

/-- The block sequence `securid_mac` actually absorbs (amended claim C1):
the first phase absorbs a 16-byte block only while *more than* 16 bytes
remain, i.e. `(len - 1) / 16` blocks; the final block is the remaining
1–16 bytes (empty only for empty input) zero-padded; the extra zero
block is added iff the first-phase count is odd. -/
def securid_mac_blocks (aes : List Nat → List Nat → List Nat)
    (input : List Nat) : List Nat :=
  let nBulk := (input.length - 1) / 16
  let work1 := (List.range nBulk).foldl
    (fun w j => encrypt_then_xor aes ((input.drop (16 * j)).take 16) w)
    (List.replicate 16 0xff)
  let finalBlk := input.drop (16 * nBulk) ++
    List.replicate (16 - (input.length - 16 * nBulk)) 0
  let work2 := encrypt_then_xor aes finalBlk work1
  let work3 := if nBulk % 2 = 1 then encrypt_then_xor aes (List.replicate 16 0) work2
               else work2
  let work4 := encrypt_then_xor aes (mac_pad input.length) work3
  List.zipWith Nat.xor work4 (aes work4 work4)

/-! ## Bit and numeric codecs (lines 124–198) -/

/-- OR a value into the byte at index `i` of a buffer (no-op out of
range, matching the fact that the C out-of-window writes carry only
zero bits — proved where used). -/
def orAt (l : List Nat) (i v : Nat) : List Nat :=
  l.set i (l.getD i 0 ||| v)

/-- The loop body of `numinput_to_bits` (lines 129–140), recursing over
the input characters.  `idx` is the offset of the C `out` pointer from
the start of the buffer and `bitpos` the current bit cursor. -/
def numinput_aux : List Nat → List Nat → Nat → Nat → List Nat
  | [], buf, _, _ => buf
  | c :: rest, buf, idx, bitpos =>
    let decoded := ((c - 48) &&& 0x07) <<< bitpos
    let buf := orAt buf idx (decoded >>> 8)
    let buf := orAt buf (idx + 1) (decoded &&& 0xff)
    if bitpos < 3 then numinput_aux rest buf (idx + 1) (bitpos + 5)
    else numinput_aux rest buf idx (bitpos - 3)

/-- `numinput_to_bits(in, out, n_bits)` (lines 124–141): the output
buffer is `memset` to `(n_bits + 7) / 8` zero bytes and the loop
consumes `n_bits / TOKEN_BITS_PER_CHAR` characters starting at bit
position 13. -/
def numinput_to_bits (input : List Nat) (n_bits : Nat) : List Nat :=
  numinput_aux (input.take (n_bits / TOKEN_BITS_PER_CHAR))
    (List.replicate ((n_bits + 7) / 8) 0) 0 13

/-- The loop body of `bits_to_numoutput` (lines 147–156), recursing on
the remaining character count. -/
def bits_aux (buf : List Nat) : Nat → Nat → Nat → List Nat
  | _, _, 0 => []
  | idx, bitpos, count + 1 =>
    let binary := (buf.getD idx 0 <<< 8) ||| buf.getD (idx + 1) 0
    let c := ((binary >>> bitpos) &&& 0x07) + 48
    if bitpos < 3 then c :: bits_aux buf (idx + 1) (bitpos + 5) count
    else c :: bits_aux buf idx (bitpos - 3) count

/-- `bits_to_numoutput(in, out, n_bits)` (lines 143–158). -/
def bits_to_numoutput (buf : List Nat) (n_bits : Nat) : List Nat :=
  bits_aux buf 0 13 (n_bits / TOKEN_BITS_PER_CHAR)

/-- The loop of `get_bits` (lines 167–177).  `acc` is the C `out`
accumulator, a `uint32_t`, hence the mod `2^32` on the shift. -/
def get_bits_loop (buf : List Nat) : Nat → Nat → Nat → Nat → Nat
  | _, _, acc, 0 => acc
  | idx, start, acc, n + 1 =>
    let bit := if (buf.getD idx 0 <<< start) &&& 0x80 ≠ 0 then 1 else 0
    let acc := ((acc <<< 1) % 4294967296) ||| bit
    if start = 7 then get_bits_loop buf (idx + 1) 0 acc n
    else get_bits_loop buf idx (start + 1) acc n

/-- `get_bits(in, start, n_bits)` (lines 160–178). -/
def get_bits (buf : List Nat) (start n_bits : Nat) : Nat :=
  get_bits_loop buf (start / 8) (start % 8) 0 n_bits

/-- The loop of `set_bits` (lines 186–197).  `val` is the C `uint32_t`
shift register; a byte is updated with `|= BIT(7-start)` or
`&= ~BIT(7-start)` (the `&` with the 8-bit complement, since the byte
is a `uint8_t`). -/
def set_bits_loop : List Nat → Nat → Nat → Nat → Nat → List Nat
  | buf, _, _, _, 0 => buf
  | buf, idx, start, val, n + 1 =>
    let byte := buf.getD idx 0
    let buf := if val &&& (1 <<< 31) ≠ 0
      then buf.set idx (byte ||| (1 <<< (7 - start)))
      else buf.set idx (byte &&& (0xff ^^^ (1 <<< (7 - start))))
    let val := (val <<< 1) % 4294967296
    if start = 7 then set_bits_loop buf (idx + 1) 0 val n
    else set_bits_loop buf idx (start + 1) val n

/-- `set_bits(out, start, n_bits, val)` (lines 180–198). -/
def set_bits (buf : List Nat) (start n_bits val : Nat) : List Nat :=
  set_bits_loop buf (start / 8) (start % 8)
    ((val <<< (32 - n_bits)) % 4294967296) n_bits

/-! ## Token codec (lines 200–236 and 393–438) -/

/-- `securid_decode_token(in, t)` (lines 200–236), with the in-place
mutation of `*t` made explicit: the function receives the caller's
record and returns the error code together with the record's final
contents.  Note that the `memset(t, 0, sizeof(*t))` at line 213 runs
*before* the checksum comparison. -/
def securid_decode_token (aes : List Nat → List Nat → List Nat)
    (input : List Nat) (t : SecuridToken) : SecuridErr × SecuridToken :=
  let len := input.length
  if len < MIN_TOKEN_CHARS || len > MAX_TOKEN_CHARS then (.bad_len, t)
  else if input.getD 0 0 ≠ 49 && input.getD 0 0 ≠ 50 then (.token_version, t)
  else
    let t := zeroToken
    let d := numinput_to_bits (input.drop (len - CHECKSUM_CHARS)) 15
    let token_mac := get_bits d 0 15
    let computed_mac := securid_shortmac aes (input.take (len - CHECKSUM_CHARS))
    if token_mac ≠ computed_mac then (.checksum_failed, t)
    else
      let d := numinput_to_bits (input.drop BINENC_OFS) BINENC_BITS
      (.none,
       { t with
         serial := (input.drop VER_CHARS).take SERIAL_CHARS,
         enc_seed := d.take AES_KEY_SIZE,
         has_enc_seed := true,
         flags := get_bits d 128 16,
         exp_date := get_bits d 144 14,
         dec_seed_hash := get_bits d 159 15,
         device_id_hash := get_bits d 174 15 })

/-! ## Key-hash derivation (lines 238–284) -/

/-- The device-id scan of `generate_key_hash` (lines 268–275): keep only
hex digits (smartphone) or decimal digits (otherwise); fail with
`BAD_PASSWORD` when a digit is kept while `len`, the count of digits
already kept, exceeds `devid_len` (the check is `len++ > devid_len`,
comparing before the increment). -/
def devid_filter (is_sm : Bool) (devid_len : Nat) :
    List Nat → Nat → Except SecuridErr (List Nat)
  | [], _ => .ok []
  | c :: rest, len =>
    if (is_sm && !c_isxdigit c) || (!is_sm && !c_isdigit c) then
      devid_filter is_sm devid_len rest len
    else if devid_len < len then .error .bad_password
    else (devid_filter is_sm devid_len rest (len + 1)).map (c :: ·)

/-- The 7-byte magic suffix (line 243). -/
def securid_magic : List Nat := [0xd8, 0xf5, 0x32, 0x53, 0x82, 0x89, 0x00]

/-- `generate_key_hash(key_hash, pass, devid, device_id_hash,
is_smartphone)` (lines 238–284).  The zero-initialised `key` array with
the password at offset 0, the kept device-id digits at `pos`, and the
magic copied directly after them, MAC'd over `pos + MAGIC_LEN` bytes, is
the concatenation `pass ++ kept ++ magic`; `device_id_hash` is the short
MAC of the `devid_len` bytes starting at `devid_buf = &key[pos]`, i.e.
the kept digits zero-padded (or truncated) to exactly `devid_len`,
taken *before* the magic is copied in.  Returns `(key_hash,
device_id_hash)`. -/
def generate_key_hash (aes : List Nat → List Nat → List Nat)
    (pass devid : Option (List Nat)) (is_smartphone : Bool) :
    Except SecuridErr (List Nat × Nat) :=
  let devid_len := if is_smartphone then 40 else 32
  let p := pass.getD []
  if p.length > MAX_PASS then .error .bad_password
  else
    match devid_filter is_smartphone devid_len (devid.getD []) 0 with
    | .error e => .error e
    | .ok kept =>
      let devid_buf := (kept ++ List.replicate devid_len 0).take devid_len
      let dih := securid_shortmac aes devid_buf
      .ok (securid_mac aes (p ++ kept ++ securid_magic), dih)

/-! ## Seed cryptor (lines 286–318) -/

/-- `securid_decrypt_seed(t, pass, devid)` (lines 286–318), with the
mutation of `*t` explicit.  Note the AES decryption writes
`t->dec_seed` (line 309) *before* the seed-hash verification. -/
def securid_decrypt_seed (aes aesdec : List Nat → List Nat → List Nat)
    (t : SecuridToken) (pass devid : Option (List Nat)) :
    SecuridErr × SecuridToken :=
  if t.flags &&& FL_PASSPROT ≠ 0 && pass.isNone then (.missing_password, t)
  else if t.flags &&& FL_SNPROT ≠ 0 && devid.isNone then (.missing_password, t)
  else
    match generate_key_hash aes
        (if t.flags &&& FL_PASSPROT ≠ 0 then pass else none)
        (if t.flags &&& FL_SNPROT ≠ 0 then devid else none)
        t.is_smartphone with
    | .error e => (e, t)
    | .ok (key_hash, device_id_hash) =>
      if t.flags &&& FL_SNPROT ≠ 0 && device_id_hash ≠ t.device_id_hash then
        (.bad_devid, t)
      else
        let t := { t with dec_seed := aesdec key_hash t.enc_seed }
        let dsh := securid_mac aes t.dec_seed
        let computed_mac := (dsh.getD 0 0 <<< 7) ||| (dsh.getD 1 0 >>> 1)
        if computed_mac ≠ t.dec_seed_hash then (.decrypt_failed, t)
        else (.none, { t with has_dec_seed := true })

/-- `securid_encode_token(t, pass, devid, out)` (lines 393–438).
Besides the emitted ctf string the function's local record `newt`
(the caller's record with `device_id_hash`, the protection flags and
`enc_seed` updated) is returned, so that claims can speak about "the
record that encode produced".  Empty password / device id strings are
treated as absent (lines 401–405).  The `d` buffer is
`MAX_TOKEN_BITS / 8 + 2 = 33` zero bytes with `enc_seed` copied in
front.  The emitted string assumes a 12-character serial, as
`sprintf(out, "2%s", ...)` followed by the write at `BINENC_OFS`
does. -/
def securid_encode_token (aes : List Nat → List Nat → List Nat)
    (t : SecuridToken) (pass devid : Option (List Nat)) :
    Except SecuridErr (List Nat × SecuridToken) :=
  let pass := match pass with
    | some p => if p.length = 0 then none else some p
    | none => none
  let devid := match devid with
    | some v => if v.length = 0 then none else some v
    | none => none
  match generate_key_hash aes pass devid t.is_smartphone with
  | .error e => .error e
  | .ok (key_hash, dih) =>
    let flags := if pass.isSome then t.flags ||| FL_PASSPROT
                 else t.flags &&& (0xffff ^^^ FL_PASSPROT)
    let flags := if devid.isSome then flags ||| FL_SNPROT
                 else flags &&& (0xffff ^^^ FL_SNPROT)
    let newt := { t with device_id_hash := dih, flags := flags,
                         enc_seed := aes key_hash t.dec_seed }
    let d := newt.enc_seed ++ List.replicate (MAX_TOKEN_BITS / 8 + 2 - 16) 0
    let d := set_bits d 128 16 newt.flags
    let d := set_bits d 144 14 newt.exp_date
    let d := set_bits d 159 15 (securid_shortmac aes newt.dec_seed)
    let d := set_bits d 174 15 newt.device_id_hash
    let out1 := (50 :: newt.serial) ++ bits_to_numoutput d BINENC_BITS
    let mac := securid_shortmac aes (out1.take CHECKSUM_OFS)
    let d := set_bits d 0 15 mac
    .ok (out1 ++ bits_to_numoutput d CHECKSUM_BITS, newt)

/-! ## Tokencode generator (lines 320–391) -/

/-- One packed-BCD byte: the two lowest decimal digits of `val`, tens in
the high nibble. -/
def bcd_byte (val : Nat) : Nat := (((val / 10) % 10) <<< 4) ||| (val % 10)

/-- `bcd_write(out, val, bytes)` (lines 336–345): `bytes` bytes, the
last holding the two lowest decimal digits. -/
def bcd_write : Nat → Nat → List Nat
  | _, 0 => []
  | val, bytes + 1 => bcd_write (val / 100) bytes ++ [bcd_byte val]

/-- The 8-byte BCD time array of `securid_compute_tokencode`
(lines 358–363).  `gmt->tm_min & ~0x03` clears the two low bits, i.e.
rounds the minute down to a multiple of 4. -/
def securid_bcd_time (gmt : TmTime) : List Nat :=
  bcd_write (gmt.tm_year + 1900) 2 ++ bcd_write (gmt.tm_mon + 1) 1 ++
  bcd_write gmt.tm_mday 1 ++ bcd_write gmt.tm_hour 1 ++
  bcd_write (gmt.tm_min - gmt.tm_min % 4) 1 ++ [0, 0]

/-- `key_from_time(bcd_time, bcd_time_bytes, serial, key)`
(lines 320–334): the first `bcd_time_bytes` bytes of the BCD time,
`0xaa` filler up to byte 8, BCD-packed serial digits 4..11 in bytes
8..11, and `0xbb` in bytes 12..15. -/
def key_from_time (bcd_time : List Nat) (bcd_time_bytes : Nat)
    (serial : List Nat) : List Nat :=
  bcd_time.take bcd_time_bytes ++ List.replicate (8 - bcd_time_bytes) 0xaa ++
  ([4, 6, 8, 10].map (fun i =>
    ((serial.getD i 0 - 48) <<< 4) ||| (serial.getD (i + 1) 0 - 48))) ++
  List.replicate 4 0xbb

/-- The five-round AES cascade of `securid_compute_tokencode`
(lines 365–374); returns the final `key0`, which holds four consecutive
tokencodes. -/
def securid_cascade (aes : List Nat → List Nat → List Nat)
    (t : SecuridToken) (gmt : TmTime) : List Nat :=
  let bt := securid_bcd_time gmt
  let k0 := aes t.dec_seed (key_from_time bt 2 t.serial)
  let k1 := aes k0 (key_from_time bt 3 t.serial)
  let k2 := aes k1 (key_from_time bt 4 t.serial)
  let k3 := aes k2 (key_from_time bt 5 t.serial)
  aes k3 (key_from_time bt 8 t.serial)

/-- Big-endian 32-bit read of bytes `i..i+3` (lines 378–379). -/
def be32_at (l : List Nat) (i : Nat) : Nat :=
  (l.getD i 0 <<< 24) ||| (l.getD (i + 1) 0 <<< 16) |||
  (l.getD (i + 2) 0 <<< 8) ||| l.getD (i + 3) 0

/-- The 4-byte tokencode slice at index `j` (0..3) of the final cascade
output, as a big-endian 32-bit value. -/
def securid_tokencode_slice (aes : List Nat → List Nat → List Nat)
    (t : SecuridToken) (gmt : TmTime) (j : Nat) : Nat :=
  be32_at (securid_cascade aes t gmt) (4 * j)

/-- One character of the output loop (lines 382–389), at loop index `i`
(character position `7 - i`): the `i`-th lowest decimal digit of the
tokencode, with PIN digit `pin[pin_len - i - 1]` added when `i <
pin_len`, reduced mod 10 and rendered in ASCII.  `tc / 10^i` is the
value of the C `tokencode` variable after `i` divisions by 10. -/
def securid_code_step (pin : List Nat) (tc i : Nat) : Nat :=
  let c := (tc / 10 ^ i) % 10 +
    (if i < pin.length then pin.getD (pin.length - i - 1) 0 - 48 else 0)
  c % 10 + 48

/-- The 8 output characters built by the loop (positions 0..7). -/
def securid_code_out (tc : Nat) (pin : List Nat) : List Nat :=
  ((List.range 8).map (fun i => securid_code_step pin tc i)).reverse

/-- `securid_compute_tokencode(t, now, code_out)` (lines 347–391), with
the external `gmtime(now)` result passed in as `gmt`.  The slice index
into the final cascade output is `(gmt->tm_min & 0x03) << 2`. -/
def securid_compute_tokencode (aes : List Nat → List Nat → List Nat)
    (t : SecuridToken) (gmt : TmTime) : List Nat :=
  let key0 := securid_cascade aes t gmt
  let i := (gmt.tm_min &&& 0x03) <<< 2
  securid_code_out (be32_at key0 i) t.pin

/-! ## Expiration and flag helpers (lines 533–576) -/

/-- `securid_check_exp(t, now)` (lines 533–548).  `time_t` arithmetic is
signed; the C `/` truncates toward zero, i.e. `Int.tdiv`. -/
def securid_check_exp (t : SecuridToken) (now : Int) : Int :=
  let wholeday : Int := 60 * 60 * 24
  let halfday : Int := 60 * 60 * 12
  let exp_unix_time := SECURID_EPOCH + ((t.exp_date : Int) + 1) * wholeday
  Int.tdiv (exp_unix_time + halfday - now) wholeday

/-- `securid_pin_format_ok(pin)` (lines 550–561). -/
def securid_pin_format_ok (pin : List Nat) : SecuridErr :=
  if pin.length < MIN_PIN || pin.length > MAX_PIN then .bad_len
  else if pin.any (fun c => !c_isdigit c) then .general
  else .none

/-- `securid_pin_required(t)` (lines 563–566): note the order —
the flags are shifted first and masked with the (pre-shifted) mask
afterwards. -/
def securid_pin_required (t : SecuridToken) : Bool :=
  2 ≤ ((t.flags >>> FLD_PINMODE_SHIFT) &&& FLD_PINMODE_MASK)

/-- The "PIN mode" value reported by `securid_token_info`
(lines 511–513): mask first, then shift. -/
def token_info_pinmode (t : SecuridToken) : Nat :=
  (t.flags &&& FLD_PINMODE_MASK) >>> FLD_PINMODE_SHIFT

/-- `securid_pass_required(t)` (lines 568–571). -/
def securid_pass_required (t : SecuridToken) : Bool :=
  t.flags &&& FL_PASSPROT ≠ 0

/-- `securid_devid_required(t)` (lines 573–576). -/
def securid_devid_required (t : SecuridToken) : Bool :=
  t.flags &&& FL_SNPROT ≠ 0

/-! ## PIN cryptor (lines 578–654) -/

/-- One lowercase hex digit, as `sprintf("%02x")` renders it. -/
def hex_digit (v : Nat) : Nat := if v < 10 then v + 48 else v + 87

/-- The two hex characters of one byte. -/
def byte_hex (b : Nat) : List Nat := [hex_digit (b / 16 % 16), hex_digit (b % 16)]

/-- Lowercase hex rendering of a byte string. -/
def bytes_hex (l : List Nat) : List Nat := (l.map byte_hex).flatten

/-- `securid_encrypt_pin(pin, password)` (lines 578–610), with the
random IV supplied by the external RNG passed in explicitly.  Returns
`none` exactly when the C function returns `NULL` for a malformed PIN
(the RNG- and malloc-failure exits are the external collaborators'
failures).  The plaintext block is the PIN `strcpy`'d into a zeroed
16-byte buffer whose last byte is then set to the PIN length. -/
def securid_encrypt_pin (aes : List Nat → List Nat → List Nat)
    (iv : List Nat) (pin password : List Nat) : Option (List Nat) :=
  if securid_pin_format_ok pin ≠ .none then none
  else
    let buf := pin ++ List.replicate (15 - pin.length) 0 ++ [pin.length]
    let passhash := securid_mac aes password
    let buf := List.zipWith Nat.xor buf iv
    let ct := aes passhash buf
    some (bytes_hex iv ++ bytes_hex ct)

/-- `hex2byte(in)` (lines 612–624), on the two characters `in[0]`
(high) and `in[1]` (low).  `ret` is a `uint8_t`, so every assignment to
it truncates mod 256; in particular `ret += (in[0] - hex_offs) << 4`
wraps for every lowercase hex digit (e.g. `('a' - 39) << 4 = 928`,
stored as 160). -/
def hex2byte (c1 c0 : Nat) : Nat :=
  let ret := (c0 - 48) % 256
  let ret := if ret > 9 then (ret - 39) % 256 else ret
  if c1 > 57 then (ret + ((c1 - 39) <<< 4)) % 256
  else (ret + ((c1 - 48) <<< 4)) % 256

/-- `securid_decrypt_pin(enc_pin, password, pin)` (lines 626–654), with
the caller's `pin` buffer made explicit: on every error path it is
returned unchanged, on success it receives the decrypted C string
(`strcpy(pin, buf)`, i.e. `buf` up to its first NUL, which is also what
`strlen(buf)` measures). -/
def securid_decrypt_pin (aes aesdec : List Nat → List Nat → List Nat)
    (enc_pin password pin : List Nat) : SecuridErr × List Nat :=
  if enc_pin.length ≠ AES_BLOCK_SIZE * 2 * 2 then (.bad_len, pin)
  else
    let iv := (List.range 16).map (fun i =>
      hex2byte (enc_pin.getD (i * 2) 0) (enc_pin.getD (i * 2 + 1) 0))
    let ct := (List.range 16).map (fun i =>
      hex2byte (enc_pin.getD ((i + 16) * 2) 0) (enc_pin.getD ((i + 16) * 2 + 1) 0))
    let passhash := securid_mac aes password
    let buf := List.zipWith Nat.xor (aesdec passhash ct) iv
    let cstr := buf.takeWhile (fun c => c ≠ 0)
    if buf.getD 14 0 ≠ 0 || buf.getD 15 0 ≠ cstr.length then (.general, pin)
    else if securid_pin_format_ok cstr ≠ .none then (.general, pin)
    else (.none, cstr)

/-! ## Cipher assumptions and a concrete toy cipher for witnesses -/

/-- A conformant external block cipher: 16-byte byte-valued output for
every input. -/
def GoodCipher (f : List Nat → List Nat → List Nat) : Prop :=
  ∀ key block, (f key block).length = 16 ∧ ∀ x ∈ f key block, x < 256

/-- Decryption inverts encryption on 16-byte blocks. -/
def CipherInverse (enc dec : List Nat → List Nat → List Nat) : Prop :=
  ∀ key block, block.length = 16 → (∀ x ∈ block, x < 256) →
    dec key (enc key block) = block

/-- A concrete stand-in for the external AES-128 encryption, used to
instantiate counterexamples and witnesses. -/
def toyEnc (key block : List Nat) : List Nat :=
  (List.range 16).map (fun i => (block.getD i 0 + key.getD i 0 + 3 * i + 1) % 256)

/-- The matching stand-in decryption. -/
def toyDec (key block : List Nat) : List Nat :=
  (List.range 16).map (fun i =>
    (block.getD i 0 + 256 - (key.getD i 0 + 3 * i + 1) % 256) % 256)

/-- The number of device-id characters `generate_key_hash` keeps: those
passing the `isxdigit` / `isdigit` filter. -/
def devid_digit_count (is_sm : Bool) (devid : List Nat) : Nat :=
  (devid.filter (fun c => if is_sm then c_isxdigit c else c_isdigit c)).length

/-! ## Bit-stream view used by the codec proofs -/

/-- Bit `i` of a byte buffer seen as an MSB-first bit stream: bit `0` is
the most significant bit of byte `0`. -/
def streamBit (buf : List Nat) (i : Nat) : Bool :=
  (buf.getD (i / 8) 0).testBit (7 - i % 8)

/-- The value of an MSB-first bit list. -/
def bitsVal (l : List Bool) : Nat :=
  l.foldl (fun a b => 2 * a + (if b then 1 else 0)) 0

/-- Bits `s .. s+n-1` of a buffer's bit stream. -/
def streamBits (buf : List Nat) (s n : Nat) : List Bool :=
  (List.range n).map (fun j => streamBit buf (s + j))

/-- The 3-bit group of the bit stream starting at bit `p`. -/
def streamGroup (buf : List Nat) (p : Nat) : Nat :=
  4 * (if streamBit buf p then 1 else 0) +
  2 * (if streamBit buf (p + 1) then 1 else 0) +
  (if streamBit buf (p + 2) then 1 else 0)

/-- A sample token with a cleartext seed and a 12-digit serial, used to
instantiate concrete counterexamples. -/
def sampleToken : SecuridToken :=
  { zeroToken with
    dec_seed := List.range 16,
    serial := [48, 49, 50, 51, 52, 53, 54, 55, 56, 57, 48, 49] }

/-- A token whose `dec_seed_hash` matches its cleartext seed (the
invariant `securid_decrypt_seed` establishes), with in-range flags and
expiration, used to instantiate the codec round trip. -/
def c2tok : SecuridToken :=
  { zeroToken with
    dec_seed := List.range 16,
    serial := [48, 49, 50, 51, 52, 53, 54, 55, 56, 57, 48, 49],
    dec_seed_hash := securid_shortmac toyEnc (List.range 16),
    exp_date := 5000, flags := 17 }

/-! # Theorems -/

/-! ## Generic facts about the toy cipher -/

theorem toyEnc_good : GoodCipher toyEnc := by
  intro key block
  refine ⟨by simp [toyEnc], ?_⟩
  intro x hx
  simp only [toyEnc, List.mem_map, List.mem_range] at hx
  obtain ⟨i, _, rfl⟩ := hx
  exact Nat.mod_lt _ (by norm_num)

theorem list_eq_map_range_getD (l : List Nat) :
    l = (List.range l.length).map (fun i => l.getD i 0) := by
  apply List.ext_getElem
  · simp
  · intro i h1 h2
    simp only [List.getElem_map, List.getElem_range, List.getD_eq_getElem?_getD,
      List.getElem?_eq_getElem h1, Option.getD_some]

theorem getD_map_range (f : Nat → Nat) (n i : Nat) (h : i < n) :
    ((List.range n).map f).getD i 0 = f i := by
  rw [List.getD_eq_getElem?_getD, List.getElem?_map, List.getElem?_range h]
  rfl

theorem toy_inverse : CipherInverse toyEnc toyDec := by
  intro key block hlen hbytes
  have hb : ∀ i, block.getD i 0 < 256 := by
    intro i
    rcases Nat.lt_or_ge i block.length with h | h
    · rw [List.getD_eq_getElem?_getD, List.getElem?_eq_getElem h]
      exact hbytes _ (List.getElem_mem h)
    · rw [List.getD_eq_default _ _ h]; norm_num
  conv_rhs => rw [list_eq_map_range_getD block, hlen]
  simp only [toyDec, toyEnc]
  apply List.ext_getElem
  · simp
  · intro i h1 h2
    have hi : i < 16 := by simpa using h1
    simp only [List.getElem_map, List.getElem_range]
    rw [getD_map_range _ 16 i hi]
    have := hb i
    omega

/-! ## C5: expiration check -/

/-- C5: for every token and time `now`, `securid_check_exp` returns
`((SECURID_EPOCH + (exp_date+1)*86400 + 43200) - now) / 86400` under
truncating (C-style signed) integer division; at
`now = SECURID_EPOCH + (exp_date+1)*86400 + 12*3600 - 1` it returns 0,
one second later it still returns 0, and one full day later it is
negative. -/
theorem c5_check_exp (t : SecuridToken) (now : Int) :
    securid_check_exp t now =
      Int.tdiv ((SECURID_EPOCH + ((t.exp_date : Int) + 1) * 86400 + 43200) - now) 86400 ∧
    securid_check_exp t (SECURID_EPOCH + ((t.exp_date : Int) + 1) * 86400 + 12 * 3600 - 1) = 0 ∧
    securid_check_exp t (SECURID_EPOCH + ((t.exp_date : Int) + 1) * 86400 + 12 * 3600) = 0 ∧
    securid_check_exp t
      (SECURID_EPOCH + ((t.exp_date : Int) + 1) * 86400 + 12 * 3600 + 86400) < 0 := by
  refine ⟨?_, ?_, ?_, ?_⟩ <;> simp only [securid_check_exp]
  · congr 1
  · have h : SECURID_EPOCH + ((t.exp_date : Int) + 1) * (60 * 60 * 24) + 60 * 60 * 12 -
        (SECURID_EPOCH + ((t.exp_date : Int) + 1) * 86400 + 12 * 3600 - 1) = 1 := by ring
    rw [h]; decide
  · have h : SECURID_EPOCH + ((t.exp_date : Int) + 1) * (60 * 60 * 24) + 60 * 60 * 12 -
        (SECURID_EPOCH + ((t.exp_date : Int) + 1) * 86400 + 12 * 3600) = 0 := by ring
    rw [h]; decide
  · have h : SECURID_EPOCH + ((t.exp_date : Int) + 1) * (60 * 60 * 24) + 60 * 60 * 12 -
        (SECURID_EPOCH + ((t.exp_date : Int) + 1) * 86400 + 12 * 3600 + 86400) = -86400 := by
      ring
    rw [h]; decide

/-! ## C7: the pinmode read in `securid_pin_required` -/

/-- C7 (refuting the claim against the code): the token with `flags =
0x10` has PIN-mode field 2 (the value `securid_token_info` reports), so
per the claim and the spec a PIN is required, yet
`securid_pin_required` — which shifts before masking instead of masking
before shifting — returns `false`. -/
theorem c7_pinmode_bug :
    token_info_pinmode { zeroToken with flags := 16 } = 2 ∧
    securid_pin_required { zeroToken with flags := 16 } = false := by decide

/-! ## C4: tokencode slice selection -/

/-- C4 (counterexample): at minute 3 `securid_compute_tokencode` does
*not* use tokencode slice 0 of the final cascade output, contradicting
the claimed 0, 0, 1, 1 selection for minutes 0, 3, 4, 7. -/
theorem c4_counterexample :
    securid_compute_tokencode toyEnc sampleToken ⟨126, 5, 15, 10, 3⟩ ≠
      securid_code_out (securid_tokencode_slice toyEnc sampleToken ⟨126, 5, 15, 10, 3⟩ 0)
        sampleToken.pin := by decide

/-- C4 (amended): the slice of the final cascade output selected by
`securid_compute_tokencode` is `tm_min % 4` — hence minutes 0, 3, 4, 7
select slices 0, 3, 0, 3 (each within its own 4-minute window), not
0, 0, 1, 1. -/
theorem c4_slice_mod4 (aes : List Nat → List Nat → List Nat)
    (t : SecuridToken) (gmt : TmTime) :
    securid_compute_tokencode aes t gmt =
      securid_code_out (securid_tokencode_slice aes t gmt (gmt.tm_min % 4)) t.pin := by
  simp only [securid_compute_tokencode, securid_tokencode_slice]
  have h1 : gmt.tm_min &&& 0x03 = gmt.tm_min % 4 :=
    Nat.and_pow_two_sub_one_eq_mod gmt.tm_min 2
  rw [h1, Nat.shiftLeft_eq]
  ring_nf

/-! ## C1: MAC absorption order -/

theorem securid_mac_loop_eq (aes : List Nat → List Nat → List Nat) (fuel : Nat) :
    ∀ (input work : List Nat) (odd : Bool), input.length ≤ fuel →
    securid_mac_loop aes fuel input work odd =
      (input.drop (16 * ((input.length - 1) / 16)),
       (List.range ((input.length - 1) / 16)).foldl
         (fun w j => encrypt_then_xor aes ((input.drop (16 * j)).take 16) w) work,
       xor odd (decide ((input.length - 1) / 16 % 2 = 1))) := by
  induction fuel with
  | zero =>
    intro input work odd h
    have hnil : input = [] := List.eq_nil_of_length_eq_zero (Nat.le_zero.mp h)
    subst hnil
    simp [securid_mac_loop]
  | succ fuel ih =>
    intro input work odd h
    by_cases h16 : 16 < input.length
    · rw [securid_mac_loop, if_pos h16]
      rw [ih (input.drop 16) _ (!odd) (by simp only [List.length_drop]; omega)]
      simp only [List.length_drop]
      have hK : (input.length - 16 - 1) / 16 + 1 = (input.length - 1) / 16 := by omega
      refine congrArg₂ _ ?_ (congrArg₂ _ ?_ ?_)
      · rw [List.drop_drop, ← hK]
        congr 1
        omega
      · conv_rhs => rw [← hK, List.range_succ_eq_map]
        rw [List.foldl_cons, List.foldl_map]
        simp only [Nat.mul_zero, List.drop_zero]
        apply List.foldl_ext
        intro w j _
        have hj : 16 + 16 * j = 16 * Nat.succ j := by omega
        rw [List.drop_drop, hj]
      · rw [← hK]
        rcases Nat.mod_two_eq_zero_or_one ((input.length - 16 - 1) / 16) with h0 | h0
        · have h1 : ((input.length - 16 - 1) / 16 + 1) % 2 = 1 := by omega
          simp only [h0, h1, decide_eq_true_eq]
          cases odd <;> simp
        · have h1 : ((input.length - 16 - 1) / 16 + 1) % 2 = 0 := by omega
          simp only [h0, h1, decide_eq_true_eq]
          cases odd <;> simp
    · rw [securid_mac_loop, if_neg h16]
      have hK : (input.length - 1) / 16 = 0 := by omega
      simp [hK]

/-- C1 (counterexample): on the 16-byte input `0,1,...,15` (an exact
multiple of the block size) the MAC computed by `securid_mac` differs
from the absorption order the claim describes, instantiated at the toy
cipher. -/
theorem c1_counterexample :
    securid_mac toyEnc (List.range 16) ≠ securid_mac_claimed toyEnc (List.range 16) := by
  decide

/-- C1 (amended): `securid_mac` absorbs, in order, a 16-byte input
block only *while more than 16 bytes remain* (so `(len-1)/16` blocks:
an input that is an exact positive multiple of 16 has its last full
block treated as the final block and gets no zero-padding block); then
the final remaining 0–16 bytes zero-padded to 16; then one all-zero
block iff the first-phase block count is odd; then the length-padding
block; then the tightening step `out := AES(work, work) XOR work`. -/
theorem c1_mac_block_order (aes : List Nat → List Nat → List Nat) (input : List Nat) :
    securid_mac aes input = securid_mac_blocks aes input := by
  unfold securid_mac securid_mac_blocks
  rw [securid_mac_loop_eq aes input.length input _ false le_rfl]
  simp only [List.length_drop, Bool.false_xor]
  rcases Nat.decEq ((input.length - 1) / 16 % 2) 1 with h | h
  · simp [h]
  · simp [h]

/-! ## C8 and C3: key-hash derivation -/

theorem skip_cond_eq (is_sm : Bool) (c : Nat) :
    ((is_sm && !c_isxdigit c) || (!is_sm && !c_isdigit c)) =
      !(if is_sm then c_isxdigit c else c_isdigit c) := by
  cases is_sm <;> simp

theorem devid_filter_spec (is_sm : Bool) (dl : Nat) (l : List Nat) :
    ∀ len : Nat,
    devid_filter is_sm dl l len =
      if 1 ≤ (l.filter (fun c => if is_sm then c_isxdigit c else c_isdigit c)).length ∧
         dl + 2 ≤ len + (l.filter (fun c => if is_sm then c_isxdigit c else c_isdigit c)).length
      then .error .bad_password
      else .ok (l.filter (fun c => if is_sm then c_isxdigit c else c_isdigit c)) := by
  induction l with
  | nil =>
    intro len
    simp [devid_filter]
  | cons c rest ih =>
    intro len
    rw [devid_filter, skip_cond_eq]
    simp only [List.filter_cons]
    by_cases hc : (if is_sm then c_isxdigit c else c_isdigit c) = true
    · simp only [hc, Bool.not_true, Bool.false_eq_true, if_false, if_true]
      by_cases hlen : dl < len
      · rw [if_pos hlen,
          if_pos ⟨by simp, by simp only [List.length_cons]; omega⟩]
      · rw [if_neg hlen, ih (len + 1)]
        by_cases hcond : 1 ≤ (rest.filter (fun c => if is_sm then c_isxdigit c
            else c_isdigit c)).length ∧
            dl + 2 ≤ len + 1 + (rest.filter (fun c => if is_sm then c_isxdigit c
            else c_isdigit c)).length
        · rw [if_pos hcond, if_pos ⟨by simp, by simp only [List.length_cons]; omega⟩]
          rfl
        · rw [if_neg hcond, if_neg (by simp only [List.length_cons]; omega)]
          rfl
    · have hc' : (if is_sm then c_isxdigit c else c_isdigit c) = false := by
        revert hc
        cases (if is_sm then c_isxdigit c else c_isdigit c) <;> simp
      simp only [hc', Bool.not_false, Bool.false_eq_true, if_false, if_true]
      exact ih len

theorem generate_key_hash_eq (aes : List Nat → List Nat → List Nat)
    (pass devid : Option (List Nat)) (is_sm : Bool) :
    generate_key_hash aes pass devid is_sm =
      (if MAX_PASS < (pass.getD []).length then .error .bad_password
       else if 1 ≤ ((devid.getD []).filter
                (fun c => if is_sm then c_isxdigit c else c_isdigit c)).length ∧
            (if is_sm then 40 else 32) + 2 ≤ ((devid.getD []).filter
                (fun c => if is_sm then c_isxdigit c else c_isdigit c)).length
       then .error .bad_password
       else .ok (securid_mac aes (pass.getD [] ++ (devid.getD []).filter
                  (fun c => if is_sm then c_isxdigit c else c_isdigit c) ++ securid_magic),
                 securid_shortmac aes (((devid.getD []).filter
                    (fun c => if is_sm then c_isxdigit c else c_isdigit c) ++
                    List.replicate (if is_sm then 40 else 32) 0).take
                    (if is_sm then 40 else 32)))) := by
  simp only [generate_key_hash, devid_filter_spec, Nat.zero_add]
  by_cases hp : MAX_PASS < (pass.getD []).length
  · simp [hp]
  · simp only [gt_iff_lt, hp, if_false]
    by_cases hd : 1 ≤ ((devid.getD []).filter
          (fun c => if is_sm then c_isxdigit c else c_isdigit c)).length ∧
        (if is_sm then 40 else 32) + 2 ≤ ((devid.getD []).filter
          (fun c => if is_sm then c_isxdigit c else c_isdigit c)).length
    · simp [hd]
    · simp [hd]

theorem c8_counterexample :
    (generate_key_hash toyEnc none (some (List.replicate 33 49)) false).isOk = true ∧
    32 < devid_digit_count false (List.replicate 33 49) ∧
    (List.replicate 33 49 : List Nat).length ≤ 40 := by decide

/-- C8 (amended): `generate_key_hash` fails — always with
`BAD_PASSWORD` — if and only if the password exceeds `MAX_PASS` bytes
or the device id contains *more than `devid_len + 1`* valid digits
(hex if smartphone, else decimal), where `devid_len` is 40 or 32: the
`len++ > devid_len` check is off by one, so exactly `devid_len + 1`
digits still succeed. -/
theorem c8_bad_password_iff (aes : List Nat → List Nat → List Nat)
    (pass devid : Option (List Nat)) (is_sm : Bool) :
    (∀ e, generate_key_hash aes pass devid is_sm = .error e → e = .bad_password) ∧
    ((generate_key_hash aes pass devid is_sm).isOk = false ↔
      MAX_PASS < (pass.getD []).length ∨
      (if is_sm then 40 else 32) + 1 < devid_digit_count is_sm (devid.getD [])) := by
  rw [generate_key_hash_eq, devid_digit_count]
  by_cases hp : MAX_PASS < (pass.getD []).length
  · rw [if_pos hp]
    refine ⟨fun e he => by injection he with h; exact h.symm, ?_⟩
    exact ⟨fun _ => Or.inl hp, fun _ => rfl⟩
  · rw [if_neg hp]
    by_cases hd : 1 ≤ ((devid.getD []).filter
          (fun c => if is_sm then c_isxdigit c else c_isdigit c)).length ∧
        (if is_sm then 40 else 32) + 2 ≤ ((devid.getD []).filter
          (fun c => if is_sm then c_isxdigit c else c_isdigit c)).length
    · rw [if_pos hd]
      refine ⟨fun e he => by injection he with h; exact h.symm, ?_⟩
      exact ⟨fun _ => Or.inr (by omega), fun _ => rfl⟩
    · rw [if_neg hd]
      refine ⟨fun e he => ?_, ?_⟩
      · cases he
      · constructor
        · intro h
          exact Bool.noConfusion h
        · intro h
          exfalso
          omega

/-- C3 (counterexample): with password "12" and device id "3" (one
decimal digit, far fewer than `devid_len = 32`), `generate_key_hash`
MACs the 10-byte buffer `pass ++ "3" ++ magic` — not the 41-byte buffer
with the device id zero-padded to 32 bytes that the claim describes —
and the two MACs differ (at the toy cipher). -/
theorem c3_counterexample :
    generate_key_hash toyEnc (some [49, 50]) (some [51]) false =
      .ok (securid_mac toyEnc ([49, 50] ++ [51] ++ securid_magic),
           securid_shortmac toyEnc (([51] ++ List.replicate 32 0).take 32)) ∧
    securid_mac toyEnc ([49, 50] ++ [51] ++ securid_magic) ≠
      securid_mac toyEnc ([49, 50] ++ ([51] ++ List.replicate 31 0) ++ securid_magic) := by
  decide

/-- C3 (amended): when `generate_key_hash` succeeds, `key_hash` is the
MAC of `pass ++ kept ++ magic` where `kept` is the device id filtered
to its valid digits, *unpadded* — so the MAC's length padding uses
`password length + (number of kept digits) + 7`; the returned device-id
hash is the short MAC of the kept digits zero-padded (or truncated) to
exactly `devid_len`. -/
theorem c3_key_hash (aes : List Nat → List Nat → List Nat)
    (pass devid : Option (List Nat)) (is_sm : Bool) (kh : List Nat) (dih : Nat)
    (h : generate_key_hash aes pass devid is_sm = .ok (kh, dih)) :
    kh = securid_mac aes (pass.getD [] ++
        (devid.getD []).filter (fun c => if is_sm then c_isxdigit c else c_isdigit c) ++
        securid_magic) ∧
    dih = securid_shortmac aes
        (((devid.getD []).filter (fun c => if is_sm then c_isxdigit c else c_isdigit c) ++
          List.replicate (if is_sm then 40 else 32) 0).take (if is_sm then 40 else 32)) := by
  rw [generate_key_hash_eq] at h
  by_cases hp : MAX_PASS < (pass.getD []).length
  · rw [if_pos hp] at h
    cases h
  · rw [if_neg hp] at h
    by_cases hd : 1 ≤ ((devid.getD []).filter
          (fun c => if is_sm then c_isxdigit c else c_isdigit c)).length ∧
        (if is_sm then 40 else 32) + 2 ≤ ((devid.getD []).filter
          (fun c => if is_sm then c_isxdigit c else c_isdigit c)).length
    · rw [if_pos hd] at h
      cases h
    · rw [if_neg hd] at h
      injection h with h1
      injection h1 with ha hb
      exact ⟨ha.symm, hb.symm⟩

theorem c3_generate_eval :
    generate_key_hash toyEnc (some [49, 50]) (some [51, 97]) false =
      .ok (securid_mac toyEnc ([49, 50] ++ [51] ++ securid_magic),
           securid_shortmac toyEnc (([51] ++ List.replicate 32 0).take 32)) := by decide

theorem c3_key_hash_witness :
    securid_mac toyEnc ([49, 50] ++ [51] ++ securid_magic) =
      securid_mac toyEnc (((some [49, 50] : Option (List Nat)).getD []) ++
        ((some [51, 97] : Option (List Nat)).getD []).filter
          (fun c => if (false : Bool) then c_isxdigit c else c_isdigit c) ++
        securid_magic) ∧
    securid_shortmac toyEnc (([51] ++ List.replicate 32 0).take 32) =
      securid_shortmac toyEnc
        ((((some [51, 97] : Option (List Nat)).getD []).filter
            (fun c => if (false : Bool) then c_isxdigit c else c_isdigit c) ++
          List.replicate (if (false : Bool) then 40 else 32) 0).take
          (if (false : Bool) then 40 else 32)) :=
  c3_key_hash toyEnc (some [49, 50]) (some [51, 97]) false _ _ c3_generate_eval

/-! ## Bit-stream lemmas for the codecs -/

theorem getD_lt_256 (buf : List Nat) (hb : ∀ x ∈ buf, x < 256) (i : Nat) :
    buf.getD i 0 < 256 := by
  rcases Nat.lt_or_ge i buf.length with h | h
  · rw [List.getD_eq_getElem?_getD, List.getElem?_eq_getElem h]
    exact hb _ (List.getElem_mem h)
  · rw [List.getD_eq_default _ _ h]
    norm_num

theorem getD_set (l : List Nat) (i j y : Nat) :
    (l.set i y).getD j 0 = if i = j ∧ i < l.length then y else l.getD j 0 := by
  rw [List.getD_eq_getElem?_getD, List.getElem?_set]
  by_cases h : i = j
  · subst h
    by_cases hl : i < l.length
    · rw [if_pos rfl, if_pos hl, if_pos ⟨rfl, hl⟩]
      rfl
    · rw [if_pos rfl, if_neg hl, if_neg (fun hc => hl hc.2)]
      rw [List.getD_eq_getElem?_getD, List.getElem?_eq_none (Nat.le_of_not_lt hl)]
  · rw [if_neg h, if_neg (fun hc => h hc.1), List.getD_eq_getElem?_getD]

theorem bitsVal_foldl (l : List Bool) : ∀ a : Nat,
    l.foldl (fun x b => 2 * x + (if b then 1 else 0)) a = a * 2 ^ l.length + bitsVal l := by
  induction l with
  | nil =>
    intro a
    simp [bitsVal]
  | cons b rest ih =>
    intro a
    show List.foldl _ (2 * a + (if b then 1 else 0)) rest = _
    rw [ih]
    have hcons : bitsVal (b :: rest) =
        (2 * 0 + (if b then 1 else 0)) * 2 ^ rest.length + bitsVal rest := by
      show List.foldl _ (2 * 0 + (if b then 1 else 0)) rest = _
      rw [ih]
    rw [hcons]
    simp only [List.length_cons, pow_succ]
    ring

theorem bitsVal_cons (b : Bool) (l : List Bool) :
    bitsVal (b :: l) = (if b then 1 else 0) * 2 ^ l.length + bitsVal l := by
  show List.foldl _ (2 * 0 + (if b then 1 else 0)) l = _
  rw [bitsVal_foldl]
  ring

theorem streamBits_length (buf : List Nat) (s n : Nat) :
    (streamBits buf s n).length = n := by
  simp [streamBits]

theorem streamBits_succ (buf : List Nat) (s n : Nat) :
    streamBits buf s (n + 1) = streamBit buf s :: streamBits buf (s + 1) n := by
  unfold streamBits
  rw [List.range_succ_eq_map, List.map_cons, List.map_map]
  refine congrArg₂ _ (by rw [Nat.add_zero]) ?_
  apply List.map_congr_left
  intro j _
  simp only [Function.comp_apply]
  congr 1
  omega

theorem streamBits_congr (a b : List Nat) (s n : Nat)
    (h : ∀ j, j < n → streamBit a (s + j) = streamBit b (s + j)) :
    streamBits a s n = streamBits b s n := by
  unfold streamBits
  apply List.map_congr_left
  intro j hj
  exact h j (List.mem_range.mp hj)

theorem two_mul_lor_bit (a : Nat) (b : Bool) :
    (2 * a) ||| (if b then 1 else 0) = 2 * a + (if b then 1 else 0) := by
  cases b
  · simp
  · simp only [if_true]
    apply Nat.eq_of_testBit_eq
    intro i
    rw [Nat.testBit_lor]
    cases i with
    | zero =>
      simp only [Nat.testBit_zero]
      have h1 : 2 * a % 2 = 0 := by omega
      have h2 : (2 * a + 1) % 2 = 1 := by omega
      simp [h1, h2]
    | succ i =>
      have h1 : (1 : Nat).testBit (i + 1) = false :=
        Nat.testBit_lt_two_pow (by
          have : (2 : Nat) ^ 1 ≤ 2 ^ (i + 1) := Nat.pow_le_pow_right (by norm_num) (by omega)
          omega)
      rw [h1, Bool.or_false, Nat.testBit_succ, Nat.testBit_succ]
      have h2 : 2 * a / 2 = a := by omega
      have h3 : (2 * a + 1) / 2 = a := by omega
      rw [h2, h3]

theorem window_bit (buf : List Nat) (hb : ∀ x ∈ buf, x < 256) (idx q : Nat)
    (hq : q < 16) :
    ((buf.getD idx 0 <<< 8) ||| buf.getD (idx + 1) 0).testBit (15 - q) =
      streamBit buf (8 * idx + q) := by
  rw [Nat.testBit_lor, Nat.testBit_shiftLeft]
  rcases Nat.lt_or_ge q 8 with h8 | h8
  · have hlo : (buf.getD (idx + 1) 0).testBit (15 - q) = false := by
      apply Nat.testBit_lt_two_pow
      have h1 : (2 : Nat) ^ 8 ≤ 2 ^ (15 - q) := Nat.pow_le_pow_right (by norm_num) (by omega)
      have h2 := getD_lt_256 buf hb (idx + 1)
      omega
    have hd : decide (15 - q ≥ 8) = true := by
      simp only [decide_eq_true_eq]
      omega
    rw [hlo, Bool.or_false, hd, Bool.true_and]
    unfold streamBit
    have h1 : (8 * idx + q) / 8 = idx := by omega
    have h2 : (8 * idx + q) % 8 = q := by omega
    rw [h1, h2]
    congr 1
    omega
  · have hd : decide (15 - q ≥ 8) = false := by
      simp only [decide_eq_false_iff_not]
      omega
    rw [hd, Bool.false_and, Bool.false_or]
    unfold streamBit
    have h1 : (8 * idx + q) / 8 = idx + 1 := by omega
    have h2 : (8 * idx + q) % 8 = q - 8 := by omega
    rw [h1, h2]
    congr 1
    omega

theorem and_128_ne_zero (x : Nat) : x &&& 0x80 ≠ 0 ↔ x.testBit 7 = true := by
  have h := Nat.and_two_pow x 7
  have h128 : (2 : Nat) ^ 7 = 128 := by norm_num
  rw [h128] at h
  rw [h]
  cases x.testBit 7 <;> simp

theorem get_bits_loop_spec (buf : List Nat) (hb : ∀ x ∈ buf, x < 256) :
    ∀ (n idx start acc : Nat), start < 8 → n ≤ 32 → acc < 2 ^ (32 - n) →
    get_bits_loop buf idx start acc n =
      acc * 2 ^ n + bitsVal (streamBits buf (8 * idx + start) n) := by
  intro n
  induction n with
  | zero =>
    intro idx start acc _ _ _
    simp [get_bits_loop, streamBits, bitsVal]
  | succ n ih =>
    intro idx start acc hstart hn hacc
    rw [get_bits_loop]
    have hpow : 2 ^ (32 - (n + 1)) * 2 = 2 ^ (32 - n) := by
      rw [← pow_succ]
      congr 1
      omega
    have h3 : (buf.getD idx 0 <<< start).testBit 7 = streamBit buf (8 * idx + start) := by
      rw [Nat.testBit_shiftLeft]
      unfold streamBit
      have h4 : (8 * idx + start) / 8 = idx := by omega
      have h5 : (8 * idx + start) % 8 = start := by omega
      rw [h4, h5]
      have h6 : decide ((7 : Nat) ≥ start) = true := by
        simp only [decide_eq_true_eq]
        omega
      rw [h6, Bool.true_and]
    have hbit : (if (buf.getD idx 0 <<< start) &&& 0x80 ≠ 0 then 1 else 0) =
        (if streamBit buf (8 * idx + start) then 1 else 0) := by
      by_cases hsb : streamBit buf (8 * idx + start) = true
      · rw [if_pos ((and_128_ne_zero _).mpr (h3.trans hsb)), if_pos hsb]
      · rw [if_neg (fun hcon => hsb (h3.symm.trans ((and_128_ne_zero _).mp hcon))),
          if_neg hsb]
    rw [hbit]
    have hmod : (acc <<< 1) % 4294967296 = 2 * acc := by
      rw [Nat.shiftLeft_eq, pow_one, Nat.mul_comm]
      apply Nat.mod_eq_of_lt
      have h32 : 2 ^ (32 - (n + 1)) * 2 ≤ 2 ^ 32 := by
        rw [hpow]
        exact Nat.pow_le_pow_right (by norm_num) (by omega)
      have he : (4294967296 : Nat) = 2 ^ 32 := by norm_num
      omega
    rw [hmod, two_mul_lor_bit]
    have hite : (if streamBit buf (8 * idx + start) then 1 else 0) ≤ 1 := by
      by_cases hsb : streamBit buf (8 * idx + start) <;> simp [hsb]
    have hacc' : 2 * acc + (if streamBit buf (8 * idx + start) then 1 else 0) <
        2 ^ (32 - n) := by omega
    have hstep : ∀ idx' start', 8 * idx' + start' = 8 * idx + start + 1 → start' < 8 →
        get_bits_loop buf idx' start'
          (2 * acc + (if streamBit buf (8 * idx + start) then 1 else 0)) n =
        acc * 2 ^ (n + 1) + bitsVal (streamBits buf (8 * idx + start) (n + 1)) := by
      intro idx' start' hpos hstart'
      rw [ih idx' start' _ hstart' (by omega) hacc', hpos]
      rw [streamBits_succ, bitsVal_cons, streamBits_length]
      by_cases hsb : streamBit buf (8 * idx + start) <;>
        simp only [hsb, if_true, if_false] <;> ring
    by_cases h7 : start = 7
    · subst h7
      rw [if_pos rfl]
      exact hstep (idx + 1) 0 (by omega) (by omega)
    · rw [if_neg h7]
      exact hstep idx (start + 1) (by omega) (by omega)

theorem get_bits_spec (buf : List Nat) (hb : ∀ x ∈ buf, x < 256)
    (s n : Nat) (hn : n ≤ 32) :
    get_bits buf s n = bitsVal (streamBits buf s n) := by
  unfold get_bits
  rw [get_bits_loop_spec buf hb n (s / 8) (s % 8) 0 (Nat.mod_lt _ (by norm_num)) hn
    (Nat.pos_pow_of_pos _ (by norm_num))]
  have h : 8 * (s / 8) + s % 8 = s := by omega
  rw [h, Nat.zero_mul, Nat.zero_add]

theorem bitsVal_testBits (v n : Nat) :
    bitsVal ((List.range n).map (fun j => v.testBit (n - 1 - j))) = v % 2 ^ n := by
  induction n with
  | zero =>
    simp [bitsVal, Nat.mod_one]
  | succ n ih =>
    rw [List.range_succ_eq_map, List.map_cons, List.map_map]
    have htail : (List.range n).map ((fun j => v.testBit (n + 1 - 1 - j)) ∘ Nat.succ) =
        (List.range n).map (fun j => v.testBit (n - 1 - j)) := by
      apply List.map_congr_left
      intro j _
      simp only [Function.comp_apply]
      congr 1
      omega
    rw [htail, bitsVal_cons, ih, List.length_map, List.length_range]
    have hsimp : n + 1 - 1 - 0 = n := by omega
    rw [hsimp]
    have hbit := Nat.testBit_to_div_mod (x := v) (i := n)
    rw [Nat.mod_pow_succ]
    rcases Nat.mod_two_eq_zero_or_one (v / 2 ^ n) with h2 | h2
    · rw [hbit, h2]
      norm_num
    · rw [hbit, h2]
      norm_num
      omega

theorem and_two_pow_ne_zero (x i : Nat) : x &&& (1 <<< i) ≠ 0 ↔ x.testBit i = true := by
  rw [Nat.shiftLeft_eq, Nat.one_mul, Nat.and_two_pow]
  have hp : 0 < 2 ^ i := Nat.pos_pow_of_pos i (by norm_num)
  cases h : x.testBit i
  · simp
  · simp only [Bool.toNat_true, Nat.one_mul, ne_eq]
    constructor
    · intro _
      trivial
    · intro _
      omega

theorem written_byte_testBit (byte start k val : Nat) (hstart : start < 8) (hk : k < 8) :
    (if val &&& (1 <<< 31) ≠ 0
     then byte ||| (1 <<< (7 - start))
     else byte &&& (0xff ^^^ (1 <<< (7 - start)))).testBit k =
      if k = 7 - start then val.testBit 31 else byte.testBit k := by
  have hsh : (1 : Nat) <<< (7 - start) = 2 ^ (7 - start) := by
    rw [Nat.shiftLeft_eq, Nat.one_mul]
  by_cases hv : val &&& (1 <<< 31) ≠ 0
  · have hv31 : val.testBit 31 = true := (and_two_pow_ne_zero val 31).mp hv
    rw [if_pos hv, hsh, Nat.testBit_lor, Nat.testBit_two_pow]
    by_cases hks : k = 7 - start
    · rw [if_pos hks, hv31]
      simp [hks]
    · rw [if_neg hks]
      have : decide (7 - start = k) = false := by
        simp only [decide_eq_false_iff_not]
        omega
      rw [this, Bool.or_false]
  · have hv31 : val.testBit 31 = false := by
      rcases Bool.eq_false_or_eq_true (val.testBit 31) with h | h
      · exact absurd ((and_two_pow_ne_zero val 31).mpr h) hv
      · exact h
    rw [if_neg hv, hsh]
    have h255 : (0xff : Nat) = 2 ^ 8 - 1 := by norm_num
    rw [Nat.testBit_land, Nat.testBit_xor, h255, Nat.testBit_two_pow_sub_one,
      Nat.testBit_two_pow]
    have hklt : decide (k < 8) = true := by
      simp only [decide_eq_true_eq]
      omega
    rw [hklt]
    by_cases hks : k = 7 - start
    · rw [if_pos hks, hv31]
      have : decide (7 - start = k) = true := by
        simp only [decide_eq_true_eq]
        omega
      rw [this]
      simp
    · rw [if_neg hks]
      have : decide (7 - start = k) = false := by
        simp only [decide_eq_false_iff_not]
        omega
      rw [this]
      simp

theorem val_shift_testBit (val r : Nat) (hr : r ≤ 30) :
    ((val <<< 1) % 4294967296).testBit (31 - r) = val.testBit (31 - (r + 1)) := by
  have h32 : (4294967296 : Nat) = 2 ^ 32 := by norm_num
  rw [h32, Nat.testBit_mod_two_pow, Nat.testBit_shiftLeft]
  have h1 : decide (31 - r < 32) = true := by
    simp only [decide_eq_true_eq]
    omega
  have h2 : decide (31 - r ≥ 1) = true := by
    simp only [decide_eq_true_eq, ge_iff_le]
    omega
  rw [h1, h2, Bool.true_and, Bool.true_and]
  congr 1

theorem streamBit_set_byte (buf : List Nat) (idx y m : Nat) :
    streamBit (buf.set idx y) m =
      if m / 8 = idx ∧ idx < buf.length then y.testBit (7 - m % 8)
      else streamBit buf m := by
  unfold streamBit
  rw [getD_set]
  by_cases h : idx = m / 8 ∧ idx < buf.length
  · rw [if_pos h, if_pos ⟨h.1.symm, h.2⟩]
  · rw [if_neg h, if_neg (fun hc => h ⟨hc.1.symm, hc.2⟩)]

theorem set_bits_loop_length : ∀ (n : Nat) (buf : List Nat) (idx start val : Nat),
    (set_bits_loop buf idx start val n).length = buf.length := by
  intro n
  induction n with
  | zero =>
    intro buf idx start val
    rfl
  | succ n ih =>
    intro buf idx start val
    simp only [set_bits_loop]
    split <;> split <;> rw [ih] <;> rw [List.length_set]

theorem set_bits_loop_bytes : ∀ (n : Nat) (buf : List Nat), (∀ x ∈ buf, x < 256) →
    ∀ (idx start val : Nat), start < 8 →
    ∀ x ∈ set_bits_loop buf idx start val n, x < 256 := by
  intro n
  induction n with
  | zero =>
    intro buf hb idx start val _ x hx
    exact hb x hx
  | succ n ih =>
    intro buf hb idx start val hstart x hx
    simp only [set_bits_loop] at hx
    have hb' : ∀ z ∈ (if val &&& (1 <<< 31) ≠ 0
        then buf.set idx (buf.getD idx 0 ||| (1 <<< (7 - start)))
        else buf.set idx (buf.getD idx 0 &&& (0xff ^^^ (1 <<< (7 - start))))), z < 256 := by
      intro z hz
      split at hz
      · rcases List.mem_or_eq_of_mem_set hz with h | h
        · exact hb z h
        · subst h
          have h1 : buf.getD idx 0 < 2 ^ 8 := getD_lt_256 buf hb idx
          have h2 : (1 : Nat) <<< (7 - start) < 2 ^ 8 := by
            rw [Nat.shiftLeft_eq, Nat.one_mul]
            have h3 : (2 : Nat) ^ (7 - start) ≤ 2 ^ 7 :=
              Nat.pow_le_pow_right (by norm_num) (by omega)
            omega
          have h4 := Nat.or_lt_two_pow h1 h2
          omega
      · rcases List.mem_or_eq_of_mem_set hz with h | h
        · exact hb z h
        · subst h
          have h1 : buf.getD idx 0 &&& (0xff ^^^ (1 <<< (7 - start))) ≤ buf.getD idx 0 :=
            Nat.and_le_left
          have h2 := getD_lt_256 buf hb idx
          omega
    split at hx
    · exact ih _ hb' (idx + 1) 0 _ (by omega) x hx
    · exact ih _ hb' idx (start + 1) _ (by omega) x hx

theorem set_bits_loop_stream : ∀ (n : Nat) (buf : List Nat) (idx start val : Nat),
    start < 8 → n ≤ 32 → 8 * idx + start + n ≤ 8 * buf.length →
    ∀ m, streamBit (set_bits_loop buf idx start val n) m =
      if 8 * idx + start ≤ m ∧ m < 8 * idx + start + n
      then val.testBit (31 - (m - (8 * idx + start)))
      else streamBit buf m := by
  intro n
  induction n with
  | zero =>
    intro buf idx start val _ _ _ m
    rw [if_neg (by omega)]
    rfl
  | succ n ih =>
    intro buf idx start val hstart hn hfit m
    have hidx : idx < buf.length := by omega
    have hcomb : (if val &&& (1 <<< 31) ≠ 0
        then buf.set idx (buf.getD idx 0 ||| (1 <<< (7 - start)))
        else buf.set idx (buf.getD idx 0 &&& (0xff ^^^ (1 <<< (7 - start))))) =
        buf.set idx (if val &&& (1 <<< 31) ≠ 0
          then buf.getD idx 0 ||| (1 <<< (7 - start))
          else buf.getD idx 0 &&& (0xff ^^^ (1 <<< (7 - start)))) := by
      by_cases hc : val &&& (1 <<< 31) ≠ 0
      · rw [if_pos hc, if_pos hc]
      · rw [if_neg hc, if_neg hc]
    have hW : ∀ m', streamBit (buf.set idx (if val &&& (1 <<< 31) ≠ 0
          then buf.getD idx 0 ||| (1 <<< (7 - start))
          else buf.getD idx 0 &&& (0xff ^^^ (1 <<< (7 - start))))) m' =
        if m' / 8 = idx
        then (if 7 - m' % 8 = 7 - start then val.testBit 31
              else (buf.getD idx 0).testBit (7 - m' % 8))
        else streamBit buf m' := by
      intro m'
      rw [streamBit_set_byte, written_byte_testBit _ _ _ _ hstart (by omega)]
      by_cases hm : m' / 8 = idx
      · rw [if_pos ⟨hm, hidx⟩, if_pos hm]
      · rw [if_neg (fun hc => hm hc.1), if_neg hm]
    have hlen' : (buf.set idx (if val &&& (1 <<< 31) ≠ 0
        then buf.getD idx 0 ||| (1 <<< (7 - start))
        else buf.getD idx 0 &&& (0xff ^^^ (1 <<< (7 - start))))).length = buf.length :=
      List.length_set buf idx _
    have hmain : ∀ idx' start', 8 * idx' + start' = 8 * idx + start + 1 → start' < 8 →
        streamBit (set_bits_loop (buf.set idx (if val &&& (1 <<< 31) ≠ 0
          then buf.getD idx 0 ||| (1 <<< (7 - start))
          else buf.getD idx 0 &&& (0xff ^^^ (1 <<< (7 - start)))))
          idx' start' (val <<< 1 % 4294967296) n) m =
        (if 8 * idx + start ≤ m ∧ m < 8 * idx + start + (n + 1)
         then val.testBit (31 - (m - (8 * idx + start)))
         else streamBit buf m) := by
      intro idx' start' hpos hstart'
      rw [ih _ idx' start' _ hstart' (by omega) (by rw [hlen']; omega), hpos]
      by_cases hm1 : 8 * idx + start + 1 ≤ m ∧ m < 8 * idx + start + 1 + n
      · rw [if_pos hm1, if_pos (by omega)]
        rw [show m - (8 * idx + start + 1) = m - (8 * idx + start) - 1 from by omega]
        rw [val_shift_testBit val (m - (8 * idx + start) - 1) (by omega)]
        congr 1
        omega
      · rw [if_neg hm1, hW]
        by_cases hm2 : m = 8 * idx + start
        · subst hm2
          rw [if_pos (by omega), if_pos (by omega), if_pos (by omega)]
          congr 1
          omega
        · rw [if_neg (show ¬(8 * idx + start ≤ m ∧ m < 8 * idx + start + (n + 1))
            from by omega)]
          by_cases hdiv : m / 8 = idx
          · rw [if_pos hdiv, if_neg (by omega)]
            unfold streamBit
            rw [hdiv]
          · rw [if_neg hdiv]
    simp only [set_bits_loop, hcomb]
    split
    · exact hmain (idx + 1) 0 (by omega) (by omega)
    · exact hmain idx (start + 1) (by omega) (by omega)

theorem set_bits_length (buf : List Nat) (s n v : Nat) :
    (set_bits buf s n v).length = buf.length :=
  set_bits_loop_length n buf _ _ _

theorem set_bits_bytes (buf : List Nat) (hb : ∀ x ∈ buf, x < 256) (s n v : Nat) :
    ∀ x ∈ set_bits buf s n v, x < 256 :=
  set_bits_loop_bytes n buf hb _ _ _ (Nat.mod_lt _ (by norm_num))

theorem set_bits_stream (buf : List Nat) (s n v : Nat) (hn : n ≤ 32)
    (hfit : s + n ≤ 8 * buf.length) (m : Nat) :
    streamBit (set_bits buf s n v) m =
      if s ≤ m ∧ m < s + n then v.testBit (n - 1 - (m - s)) else streamBit buf m := by
  unfold set_bits
  rw [set_bits_loop_stream n buf (s / 8) (s % 8) _ (Nat.mod_lt _ (by norm_num)) hn
    (by omega), show 8 * (s / 8) + s % 8 = s from by omega]
  by_cases hm : s ≤ m ∧ m < s + n
  · rw [if_pos hm, if_pos hm]
    have h32 : (4294967296 : Nat) = 2 ^ 32 := by norm_num
    rw [h32, Nat.testBit_mod_two_pow, Nat.testBit_shiftLeft]
    have h1 : decide (31 - (m - s) < 32) = true := by
      simp only [decide_eq_true_eq]
      omega
    have h2 : decide (31 - (m - s) ≥ 32 - n) = true := by
      simp only [decide_eq_true_eq, ge_iff_le]
      omega
    rw [h1, h2, Bool.true_and, Bool.true_and]
    congr 1
    omega
  · rw [if_neg hm, if_neg hm]

theorem getD_orAt (l : List Nat) (i j v : Nat) :
    (orAt l i v).getD j 0 = if i = j ∧ i < l.length then l.getD j 0 ||| v
      else l.getD j 0 := by
  unfold orAt
  rw [getD_set]
  by_cases h : i = j ∧ i < l.length
  · rw [if_pos h, if_pos h, h.1]
  · rw [if_neg h, if_neg h]

theorem orAt_length (l : List Nat) (i v : Nat) : (orAt l i v).length = l.length := by
  unfold orAt
  exact List.length_set l i _

theorem decoded_testBit (v bitpos j : Nat) (hv : v < 8) :
    (v <<< bitpos).testBit j =
      (decide (bitpos ≤ j ∧ j < bitpos + 3) && v.testBit (j - bitpos)) := by
  rw [Nat.testBit_shiftLeft]
  by_cases h1 : bitpos ≤ j
  · by_cases h2 : j < bitpos + 3
    · have hd1 : decide (j ≥ bitpos) = true := by
        simp only [ge_iff_le, decide_eq_true_eq]
        omega
      have hd2 : decide (bitpos ≤ j ∧ j < bitpos + 3) = true := by
        simp only [decide_eq_true_eq]
        omega
      rw [hd1, hd2]
    · have hbf : v.testBit (j - bitpos) = false := by
        apply Nat.testBit_lt_two_pow
        have : (2 : Nat) ^ 3 ≤ 2 ^ (j - bitpos) :=
          Nat.pow_le_pow_right (by norm_num) (by omega)
        omega
      have hd2 : decide (bitpos ≤ j ∧ j < bitpos + 3) = false := by
        simp only [decide_eq_false_iff_not]
        omega
      rw [hbf, hd2]
      simp
  · have hd1 : decide (j ≥ bitpos) = false := by
      simp only [ge_iff_le, decide_eq_false_iff_not]
      omega
    have hd2 : decide (bitpos ≤ j ∧ j < bitpos + 3) = false := by
      simp only [decide_eq_false_iff_not]
      omega
    rw [hd1, hd2]

theorem char_write_stream (buf : List Nat) (hb : ∀ x ∈ buf, x < 256)
    (idx bitpos v : Nat) (hv : v < 8) (hbp : bitpos ≤ 13)
    (hfit : 8 * idx + (13 - bitpos) + 3 ≤ 8 * buf.length) (m : Nat) :
    streamBit (orAt (orAt buf idx ((v <<< bitpos) >>> 8)) (idx + 1)
        ((v <<< bitpos) &&& 0xff)) m =
      (streamBit buf m ||
       (decide (8 * idx + (13 - bitpos) ≤ m ∧ m < 8 * idx + (13 - bitpos) + 3) &&
        v.testBit (2 - (m - (8 * idx + (13 - bitpos)))))) := by
  have hidx : idx < buf.length := by omega
  unfold streamBit
  rw [getD_orAt, orAt_length, getD_orAt]
  by_cases hk2 : idx + 1 = m / 8
  · by_cases hl2 : idx + 1 < buf.length
    · rw [if_pos ⟨hk2, hl2⟩, if_neg (show ¬(idx = m / 8 ∧ idx < buf.length) from by omega),
        Nat.testBit_lor]
      have hlo : ((v <<< bitpos) &&& 0xff).testBit (7 - m % 8) =
          (v <<< bitpos).testBit (7 - m % 8) := by
        have h255 : (0xff : Nat) = 2 ^ 8 - 1 := by norm_num
        rw [Nat.testBit_land, h255, Nat.testBit_two_pow_sub_one]
        have hd : decide (7 - m % 8 < 8) = true := by
          simp only [decide_eq_true_eq]
          omega
        rw [hd, Bool.and_true]
      rw [hlo, decoded_testBit v bitpos _ hv]
      congr 1
      by_cases hin : 8 * idx + (13 - bitpos) ≤ m ∧ m < 8 * idx + (13 - bitpos) + 3
      · have t1 : decide (bitpos ≤ 7 - m % 8 ∧ 7 - m % 8 < bitpos + 3) = true := by
          simp only [decide_eq_true_eq]
          omega
        have t2 : decide (8 * idx + (13 - bitpos) ≤ m ∧
            m < 8 * idx + (13 - bitpos) + 3) = true := by
          simp only [decide_eq_true_eq]
          omega
        rw [t1, t2, Bool.true_and, Bool.true_and]
        congr 1
        omega
      · have t1 : decide (bitpos ≤ 7 - m % 8 ∧ 7 - m % 8 < bitpos + 3) = false := by
          simp only [decide_eq_false_iff_not]
          omega
        have t2 : decide (8 * idx + (13 - bitpos) ≤ m ∧
            m < 8 * idx + (13 - bitpos) + 3) = false := by
          simp only [decide_eq_false_iff_not]
          omega
        rw [t1, t2, Bool.false_and, Bool.false_and]
    · rw [if_neg (fun hc => hl2 hc.2),
        if_neg (show ¬(idx = m / 8 ∧ idx < buf.length) from by omega)]
      have t2 : decide (8 * idx + (13 - bitpos) ≤ m ∧
          m < 8 * idx + (13 - bitpos) + 3) = false := by
        simp only [decide_eq_false_iff_not]
        omega
      rw [t2, Bool.false_and, Bool.or_false]
  · by_cases hk1 : idx = m / 8
    · rw [if_neg (show ¬(idx + 1 = m / 8 ∧ idx + 1 < buf.length) from by omega),
        if_pos ⟨hk1, hidx⟩, Nat.testBit_lor, Nat.testBit_shiftRight,
        decoded_testBit v bitpos _ hv]
      congr 1
      by_cases hin : 8 * idx + (13 - bitpos) ≤ m ∧ m < 8 * idx + (13 - bitpos) + 3
      · have t1 : decide (bitpos ≤ 8 + (7 - m % 8) ∧ 8 + (7 - m % 8) < bitpos + 3) =
            true := by
          simp only [decide_eq_true_eq]
          omega
        have t2 : decide (8 * idx + (13 - bitpos) ≤ m ∧
            m < 8 * idx + (13 - bitpos) + 3) = true := by
          simp only [decide_eq_true_eq]
          omega
        rw [t1, t2, Bool.true_and, Bool.true_and]
        congr 1
        omega
      · have t1 : decide (bitpos ≤ 8 + (7 - m % 8) ∧ 8 + (7 - m % 8) < bitpos + 3) =
            false := by
          simp only [decide_eq_false_iff_not]
          omega
        have t2 : decide (8 * idx + (13 - bitpos) ≤ m ∧
            m < 8 * idx + (13 - bitpos) + 3) = false := by
          simp only [decide_eq_false_iff_not]
          omega
        rw [t1, t2, Bool.false_and, Bool.false_and]
    · rw [if_neg (show ¬(idx + 1 = m / 8 ∧ idx + 1 < buf.length) from by omega),
        if_neg (show ¬(idx = m / 8 ∧ idx < buf.length) from by omega)]
      have t2 : decide (8 * idx + (13 - bitpos) ≤ m ∧
          m < 8 * idx + (13 - bitpos) + 3) = false := by
        simp only [decide_eq_false_iff_not]
        omega
      rw [t2, Bool.false_and, Bool.or_false]

theorem orAt_bytes (l : List Nat) (hb : ∀ x ∈ l, x < 256) (i v : Nat) (hv : v < 256) :
    ∀ x ∈ orAt l i v, x < 256 := by
  intro x hx
  unfold orAt at hx
  rcases List.mem_or_eq_of_mem_set hx with h | h
  · exact hb x h
  · subst h
    have h1 := getD_lt_256 l hb i
    have h2 : (256 : Nat) = 2 ^ 8 := by norm_num
    have h3 := Nat.or_lt_two_pow (show l.getD i 0 < 2 ^ 8 by omega) (show v < 2 ^ 8 by omega)
    omega

theorem decoded_lt (v bitpos : Nat) (hv : v < 8) (hbp : bitpos ≤ 13) :
    v <<< bitpos < 65536 := by
  rw [Nat.shiftLeft_eq]
  have h1 : (2 : Nat) ^ bitpos ≤ 2 ^ 13 := Nat.pow_le_pow_right (by norm_num) hbp
  have h2 : (2 : Nat) ^ 13 = 8192 := by norm_num
  have h3 : v * 2 ^ bitpos ≤ 7 * 8192 := Nat.mul_le_mul (by omega) (by omega)
  omega

theorem char_write_bytes (buf : List Nat) (hb : ∀ x ∈ buf, x < 256)
    (idx bitpos v : Nat) (hv : v < 8) (hbp : bitpos ≤ 13) :
    ∀ x ∈ orAt (orAt buf idx ((v <<< bitpos) >>> 8)) (idx + 1)
        ((v <<< bitpos) &&& 0xff), x < 256 := by
  have hdec := decoded_lt v bitpos hv hbp
  have hhi : (v <<< bitpos) >>> 8 < 256 := by
    rw [Nat.shiftRight_eq_div_pow]
    have h8 : (2 : Nat) ^ 8 = 256 := by norm_num
    omega
  have hlo : (v <<< bitpos) &&& 0xff < 256 := by
    have := Nat.and_le_right (n := v <<< bitpos) (m := 0xff)
    omega
  exact orAt_bytes _ (orAt_bytes buf hb idx _ hhi) (idx + 1) _ hlo

theorem numinput_aux_spec : ∀ (ds : List Nat) (buf : List Nat), (∀ x ∈ buf, x < 256) →
    ∀ (idx bitpos : Nat), bitpos ≤ 13 →
    8 * idx + (13 - bitpos) + 3 * ds.length ≤ 8 * buf.length →
    (numinput_aux ds buf idx bitpos).length = buf.length ∧
    (∀ x ∈ numinput_aux ds buf idx bitpos, x < 256) ∧
    ∀ m, streamBit (numinput_aux ds buf idx bitpos) m =
      (streamBit buf m ||
       (decide (8 * idx + (13 - bitpos) ≤ m ∧
          m < 8 * idx + (13 - bitpos) + 3 * ds.length) &&
        ((ds.getD ((m - (8 * idx + (13 - bitpos))) / 3) 0 - 48) &&& 0x07).testBit
          (2 - (m - (8 * idx + (13 - bitpos))) % 3))) := by
  intro ds
  induction ds with
  | nil =>
    intro buf hbuf idx bitpos hbp hfit
    refine ⟨rfl, hbuf, fun m => ?_⟩
    have t : decide (8 * idx + (13 - bitpos) ≤ m ∧
        m < 8 * idx + (13 - bitpos) + 3 * ([] : List Nat).length) = false := by
      simp only [decide_eq_false_iff_not, List.length_nil]
      omega
    rw [t, Bool.false_and, Bool.or_false]
    rfl
  | cons c rest ih =>
    intro buf hbuf idx bitpos hbp hfit
    have hv : (c - 48) &&& 0x07 < 8 := by
      have := Nat.and_le_right (n := c - 48) (m := 0x07)
      omega
    have hfit1 : 8 * idx + (13 - bitpos) + 3 ≤ 8 * buf.length := by
      have : (c :: rest).length = rest.length + 1 := List.length_cons c rest
      omega
    have hchar := char_write_stream buf hbuf idx bitpos _ hv hbp hfit1
    have hcbytes := char_write_bytes buf hbuf idx bitpos _ hv hbp
    have hclen : (orAt (orAt buf idx (((c - 48) &&& 0x07) <<< bitpos >>> 8)) (idx + 1)
        (((c - 48) &&& 0x07) <<< bitpos &&& 0xff)).length = buf.length := by
      rw [orAt_length, orAt_length]
    have hmain : ∀ idx' bitpos',
        8 * idx' + (13 - bitpos') = 8 * idx + (13 - bitpos) + 3 → bitpos' ≤ 13 →
        (numinput_aux rest (orAt (orAt buf idx (((c - 48) &&& 0x07) <<< bitpos >>> 8))
            (idx + 1) (((c - 48) &&& 0x07) <<< bitpos &&& 0xff)) idx' bitpos').length =
          buf.length ∧
        (∀ x ∈ numinput_aux rest (orAt (orAt buf idx
            (((c - 48) &&& 0x07) <<< bitpos >>> 8))
            (idx + 1) (((c - 48) &&& 0x07) <<< bitpos &&& 0xff)) idx' bitpos', x < 256) ∧
        ∀ m, streamBit (numinput_aux rest (orAt (orAt buf idx
            (((c - 48) &&& 0x07) <<< bitpos >>> 8))
            (idx + 1) (((c - 48) &&& 0x07) <<< bitpos &&& 0xff)) idx' bitpos') m =
          (streamBit buf m ||
           (decide (8 * idx + (13 - bitpos) ≤ m ∧
              m < 8 * idx + (13 - bitpos) + 3 * (c :: rest).length) &&
            (((c :: rest).getD ((m - (8 * idx + (13 - bitpos))) / 3) 0 - 48) &&&
              0x07).testBit (2 - (m - (8 * idx + (13 - bitpos))) % 3))) := by
      intro idx' bitpos' hpos hbp'
      obtain ⟨ihlen, ihbytes, ihstream⟩ := ih _ hcbytes idx' bitpos' hbp'
        (by rw [hclen, hpos]; simp only [List.length_cons] at hfit ⊢; omega)
      refine ⟨by rw [ihlen, hclen], ihbytes, fun m => ?_⟩
      rw [ihstream m, hpos, hchar m, Bool.or_assoc]
      congr 1
      by_cases h1 : 8 * idx + (13 - bitpos) ≤ m ∧ m < 8 * idx + (13 - bitpos) + 3
      · have t1 : decide (8 * idx + (13 - bitpos) ≤ m ∧
            m < 8 * idx + (13 - bitpos) + 3) = true := by
          simp only [decide_eq_true_eq]
          omega
        have t2 : decide (8 * idx + (13 - bitpos) + 3 ≤ m ∧
            m < 8 * idx + (13 - bitpos) + 3 + 3 * rest.length) = false := by
          simp only [decide_eq_false_iff_not]
          omega
        have t3 : decide (8 * idx + (13 - bitpos) ≤ m ∧
            m < 8 * idx + (13 - bitpos) + 3 * (c :: rest).length) = true := by
          simp only [decide_eq_true_eq, List.length_cons]
          omega
        rw [t1, t2, t3, Bool.true_and, Bool.true_and, Bool.false_and, Bool.or_false]
        rw [show (m - (8 * idx + (13 - bitpos))) / 3 = 0 from by omega,
          List.getD_cons_zero,
          show (m - (8 * idx + (13 - bitpos))) % 3 = m - (8 * idx + (13 - bitpos))
            from by omega]
      · by_cases h2 : 8 * idx + (13 - bitpos) + 3 ≤ m ∧
            m < 8 * idx + (13 - bitpos) + 3 + 3 * rest.length
        · have t1 : decide (8 * idx + (13 - bitpos) ≤ m ∧
              m < 8 * idx + (13 - bitpos) + 3) = false := by
            simp only [decide_eq_false_iff_not]
            omega
          have t3 : decide (8 * idx + (13 - bitpos) ≤ m ∧
              m < 8 * idx + (13 - bitpos) + 3 * (c :: rest).length) = true := by
            simp only [decide_eq_true_eq, List.length_cons]
            omega
          rw [t1, t3, Bool.false_and, Bool.false_or, Bool.true_and]
          have hq : (m - (8 * idx + (13 - bitpos))) / 3 =
              (m - (8 * idx + (13 - bitpos) + 3)) / 3 + 1 := by omega
          rw [hq, List.getD_cons_succ,
            show (m - (8 * idx + (13 - bitpos))) % 3 =
              (m - (8 * idx + (13 - bitpos) + 3)) % 3 from by omega]
          rw [show decide (8 * idx + (13 - bitpos) + 3 ≤ m ∧
              m < 8 * idx + (13 - bitpos) + 3 + 3 * rest.length) = true from by
            simp only [decide_eq_true_eq]
            omega, Bool.true_and]
        · have t1 : decide (8 * idx + (13 - bitpos) ≤ m ∧
              m < 8 * idx + (13 - bitpos) + 3) = false := by
            simp only [decide_eq_false_iff_not]
            omega
          have t2 : decide (8 * idx + (13 - bitpos) + 3 ≤ m ∧
              m < 8 * idx + (13 - bitpos) + 3 + 3 * rest.length) = false := by
            simp only [decide_eq_false_iff_not]
            omega
          have t3 : decide (8 * idx + (13 - bitpos) ≤ m ∧
              m < 8 * idx + (13 - bitpos) + 3 * (c :: rest).length) = false := by
            simp only [decide_eq_false_iff_not, List.length_cons]
            omega
          rw [t1, t2, t3, Bool.false_and, Bool.false_and, Bool.false_and, Bool.or_false]
    simp only [numinput_aux]
    split
    next h3 => exact hmain (idx + 1) (bitpos + 5) (by omega) (by omega)
    next h3 => exact hmain idx (bitpos - 3) (by omega) (by omega)

theorem streamBit_replicate_zero (k m : Nat) :
    streamBit (List.replicate k 0) m = false := by
  unfold streamBit
  have h : (List.replicate k (0 : Nat)).getD (m / 8) 0 = 0 := by
    rw [List.getD_eq_getElem?_getD, List.getElem?_replicate]
    split <;> rfl
  rw [h, Nat.zero_testBit]

theorem numinput_to_bits_spec (input : List Nat) (n_bits : Nat) :
    (numinput_to_bits input n_bits).length = (n_bits + 7) / 8 ∧
    (∀ x ∈ numinput_to_bits input n_bits, x < 256) ∧
    ∀ m, streamBit (numinput_to_bits input n_bits) m =
      (decide (m < 3 * (input.take (n_bits / TOKEN_BITS_PER_CHAR)).length) &&
       (((input.take (n_bits / TOKEN_BITS_PER_CHAR)).getD (m / 3) 0 - 48) &&& 0x07).testBit
         (2 - m % 3)) := by
  unfold numinput_to_bits
  have hrep : ∀ x ∈ List.replicate ((n_bits + 7) / 8) (0 : Nat), x < 256 := by
    intro x hx
    rw [List.eq_of_mem_replicate hx]
    norm_num
  have htk := List.length_take (n_bits / TOKEN_BITS_PER_CHAR) input
  have hfit : 8 * 0 + (13 - 13) + 3 * (input.take (n_bits / TOKEN_BITS_PER_CHAR)).length ≤
      8 * (List.replicate ((n_bits + 7) / 8) (0 : Nat)).length := by
    rw [List.length_replicate, htk]
    have h1 : min (n_bits / TOKEN_BITS_PER_CHAR) input.length ≤ n_bits / 3 :=
      le_trans (Nat.min_le_left _ _) (le_of_eq rfl)
    omega
  obtain ⟨hlen, hbytes, hstream⟩ :=
    numinput_aux_spec (input.take (n_bits / TOKEN_BITS_PER_CHAR))
      (List.replicate ((n_bits + 7) / 8) 0) hrep 0 13 (by norm_num) hfit
  refine ⟨by rw [hlen, List.length_replicate], hbytes, fun m => ?_⟩
  rw [hstream m, streamBit_replicate_zero, Bool.false_or]
  have hd : decide (8 * 0 + (13 - 13) ≤ m ∧
      m < 8 * 0 + (13 - 13) + 3 * (input.take (n_bits / TOKEN_BITS_PER_CHAR)).length) =
      decide (m < 3 * (input.take (n_bits / TOKEN_BITS_PER_CHAR)).length) := by
    apply decide_eq_decide.mpr
    omega
  rw [hd]
  congr 2 <;> omega

theorem and_seven_decomp (x : Nat) :
    x &&& 0x07 = 4 * (if x.testBit 2 then 1 else 0) + 2 * (if x.testBit 1 then 1 else 0) +
      (if x.testBit 0 then 1 else 0) := by
  have h7 : (0x07 : Nat) = 2 ^ 3 - 1 := by norm_num
  rw [h7, Nat.and_pow_two_sub_one_eq_mod]
  have e2 : x.testBit 2 = decide (x / 4 % 2 = 1) := by
    rw [Nat.testBit_to_div_mod]
  have e1 : x.testBit 1 = decide (x / 2 % 2 = 1) := by
    rw [Nat.testBit_to_div_mod]
  have e0 : x.testBit 0 = decide (x % 2 = 1) := by
    rw [Nat.testBit_to_div_mod]
    norm_num
  rw [e2, e1, e0]
  have h8 : (2 : Nat) ^ 3 = 8 := by norm_num
  rw [h8]
  rcases Nat.mod_two_eq_zero_or_one (x / 4) with h2 | h2 <;>
    rcases Nat.mod_two_eq_zero_or_one (x / 2) with h1 | h1 <;>
    rcases Nat.mod_two_eq_zero_or_one x with h0 | h0 <;>
    simp only [h2, h1, h0] <;> norm_num <;> omega

theorem bits_aux_spec (buf : List Nat) (hb : ∀ x ∈ buf, x < 256) :
    ∀ (count idx bitpos : Nat), bitpos ≤ 13 →
    bits_aux buf idx bitpos count =
      (List.range count).map (fun j =>
        streamGroup buf (8 * idx + (13 - bitpos) + 3 * j) + 48) := by
  intro count
  induction count with
  | zero =>
    intro idx bitpos _
    rfl
  | succ count ih =>
    intro idx bitpos hbp
    have hhead : ((buf.getD idx 0 <<< 8 ||| buf.getD (idx + 1) 0) >>> bitpos) &&& 0x07 =
        streamGroup buf (8 * idx + (13 - bitpos)) := by
      rw [and_seven_decomp]
      have hk : ∀ k, k < 3 →
          ((buf.getD idx 0 <<< 8 ||| buf.getD (idx + 1) 0) >>> bitpos).testBit k =
          streamBit buf (8 * idx + (13 - bitpos) + (2 - k)) := by
        intro k hk3
        rw [Nat.testBit_shiftRight]
        have hq : bitpos + k = 15 - (13 - bitpos + (2 - k)) := by omega
        rw [hq, window_bit buf hb idx _ (by omega)]
        congr 1
        omega
      rw [hk 2 (by omega), hk 1 (by omega), hk 0 (by omega)]
      unfold streamGroup
      have ha : 8 * idx + (13 - bitpos) + (2 - 2) = 8 * idx + (13 - bitpos) := by omega
      have hb1 : 8 * idx + (13 - bitpos) + (2 - 1) = 8 * idx + (13 - bitpos) + 1 := by omega
      have hc : 8 * idx + (13 - bitpos) + (2 - 0) = 8 * idx + (13 - bitpos) + 2 := by omega
      rw [ha, hb1, hc]
    have hmain : ∀ idx' bitpos',
        8 * idx' + (13 - bitpos') = 8 * idx + (13 - bitpos) + 3 → bitpos' ≤ 13 →
        ((((buf.getD idx 0 <<< 8 ||| buf.getD (idx + 1) 0) >>> bitpos) &&& 0x07) + 48) ::
            bits_aux buf idx' bitpos' count =
          (List.range (count + 1)).map (fun j =>
            streamGroup buf (8 * idx + (13 - bitpos) + 3 * j) + 48) := by
      intro idx' bitpos' hpos hbp'
      rw [List.range_succ_eq_map, List.map_cons, List.map_map, ih idx' bitpos' hbp', hpos]
      refine congrArg₂ _ ?_ ?_
      · rw [hhead]
        norm_num
      · apply List.map_congr_left
        intro j _
        simp only [Function.comp_apply]
        congr 2
        omega
    rw [bits_aux]
    split
    next h3 => exact hmain (idx + 1) (bitpos + 5) (by omega) (by omega)
    next h3 => exact hmain idx (bitpos - 3) (by omega) (by omega)

theorem bits_to_numoutput_spec (buf : List Nat) (hb : ∀ x ∈ buf, x < 256) (n_bits : Nat) :
    bits_to_numoutput buf n_bits =
      (List.range (n_bits / TOKEN_BITS_PER_CHAR)).map
        (fun j => streamGroup buf (3 * j) + 48) := by
  unfold bits_to_numoutput
  rw [bits_aux_spec buf hb _ 0 13 (by norm_num)]
  apply List.map_congr_left
  intro j _
  norm_num

theorem digit_value_decomp : ∀ v : Nat, v < 8 →
    4 * (if v.testBit 2 then 1 else 0) + 2 * (if v.testBit 1 then 1 else 0) +
      (if v.testBit 0 then 1 else 0) = v := by decide

/-! ## C10: the bit codec involution -/

/-- C10: packing a `'0'..'7'` digit string with `numinput_to_bits` at
`n_bits = 3 · length` and unpacking with `bits_to_numoutput` at the
same bit count returns the original string. -/
theorem c10_bit_codec_involution (ds : List Nat) (h : ∀ c ∈ ds, 48 ≤ c ∧ c ≤ 55) :
    bits_to_numoutput (numinput_to_bits ds (3 * ds.length)) (3 * ds.length) = ds := by
  obtain ⟨hlen, hbytes, hstream⟩ := numinput_to_bits_spec ds (3 * ds.length)
  have hn : 3 * ds.length / TOKEN_BITS_PER_CHAR = ds.length := by
    unfold TOKEN_BITS_PER_CHAR
    omega
  have htake : ds.take (3 * ds.length / TOKEN_BITS_PER_CHAR) = ds := by
    rw [hn, List.take_length]
  rw [htake] at hstream
  rw [bits_to_numoutput_spec _ hbytes, hn]
  apply List.ext_getElem
  · simp
  · intro j h1 h2
    have hj : j < ds.length := h2
    rw [List.getElem_map, List.getElem_range]
    have hv : ∀ k, k < 3 → streamBit (numinput_to_bits ds (3 * ds.length)) (3 * j + k) =
        ((ds.getD j 0 - 48) &&& 0x07).testBit (2 - k) := by
      intro k hk3
      rw [hstream (3 * j + k)]
      have hd : decide (3 * j + k < 3 * ds.length) = true := by
        simp only [decide_eq_true_eq]
        omega
      rw [hd, Bool.true_and, show (3 * j + k) / 3 = j from by omega,
        show (3 * j + k) % 3 = k from by omega]
    have e0 := hv 0 (by omega)
    rw [Nat.add_zero] at e0
    have e1 := hv 1 (by omega)
    have e2 := hv 2 (by omega)
    unfold streamGroup
    rw [e0, e1, e2]
    rw [show (2 : Nat) - 0 = 2 from rfl, show (2 : Nat) - 1 = 1 from rfl,
      show (2 : Nat) - 2 = 0 from rfl]
    have hlt : (ds.getD j 0 - 48) &&& 0x07 < 8 := by
      have := Nat.and_le_right (n := ds.getD j 0 - 48) (m := 0x07)
      omega
    rw [digit_value_decomp _ hlt]
    have hgd : ds.getD j 0 = ds[j] := by
      rw [List.getD_eq_getElem?_getD, List.getElem?_eq_getElem hj]
      rfl
    have hc := h ds[j] (List.getElem_mem hj)
    rw [hgd]
    have h7 : (0x07 : Nat) = 2 ^ 3 - 1 := by norm_num
    rw [h7, Nat.and_pow_two_sub_one_eq_mod]
    omega

theorem c10_bit_codec_involution_witness :
    bits_to_numoutput
      (numinput_to_bits [48, 49, 50, 51, 52, 53, 54, 55, 49, 50]
        (3 * ([48, 49, 50, 51, 52, 53, 54, 55, 49, 50] : List Nat).length))
      (3 * ([48, 49, 50, 51, 52, 53, 54, 55, 49, 50] : List Nat).length) =
      [48, 49, 50, 51, 52, 53, 54, 55, 49, 50] :=
  c10_bit_codec_involution [48, 49, 50, 51, 52, 53, 54, 55, 49, 50] (by decide)

/-! ## Byte-boundedness of the MAC under a conformant cipher -/

theorem zipWith_xor_lt (a b : List Nat) (ha : ∀ x ∈ a, x < 256) (hb : ∀ x ∈ b, x < 256) :
    ∀ x ∈ List.zipWith Nat.xor a b, x < 256 := by
  have h256 : (256 : Nat) = 2 ^ 8 := by norm_num
  intro x hx
  obtain ⟨i, hi, hxi⟩ := List.getElem_of_mem hx
  rw [List.length_zipWith, lt_min_iff] at hi
  obtain ⟨hia, hib⟩ := hi
  rw [List.getElem_zipWith] at hxi
  have ha' : a[i] < 2 ^ 8 := by rw [← h256]; exact ha _ (List.getElem_mem hia)
  have hb' : b[i] < 2 ^ 8 := by rw [← h256]; exact hb _ (List.getElem_mem hib)
  rw [← hxi, h256]
  exact Nat.xor_lt_two_pow ha' hb'

theorem encrypt_then_xor_good (aes : List Nat → List Nat → List Nat) (hg : GoodCipher aes)
    (key work : List Nat) (hwl : work.length = 16) (hwb : ∀ x ∈ work, x < 256) :
    (encrypt_then_xor aes key work).length = 16 ∧
      ∀ x ∈ encrypt_then_xor aes key work, x < 256 := by
  obtain ⟨hal, hab⟩ := hg key work
  constructor
  · unfold encrypt_then_xor
    rw [List.length_zipWith, hwl, hal, min_self]
  · exact zipWith_xor_lt work _ hwb hab

theorem securid_mac_loop_good (aes : List Nat → List Nat → List Nat) (hg : GoodCipher aes) :
    ∀ (fuel : Nat) (input work : List Nat) (odd : Bool),
      work.length = 16 → (∀ x ∈ work, x < 256) →
      (securid_mac_loop aes fuel input work odd).2.1.length = 16 ∧
        ∀ x ∈ (securid_mac_loop aes fuel input work odd).2.1, x < 256 := by
  intro fuel
  induction fuel with
  | zero =>
    intro input work odd hl hb
    exact ⟨hl, hb⟩
  | succ fuel ih =>
    intro input work odd hl hb
    rw [securid_mac_loop]
    split
    · obtain ⟨h1, h2⟩ := encrypt_then_xor_good aes hg (input.take 16) work hl hb
      exact ih _ _ _ h1 h2
    · exact ⟨hl, hb⟩

theorem securid_mac_good (aes : List Nat → List Nat → List Nat) (hg : GoodCipher aes)
    (input : List Nat) :
    (securid_mac aes input).length = 16 ∧ ∀ x ∈ securid_mac aes input, x < 256 := by
  unfold securid_mac
  simp only []
  set r := securid_mac_loop aes input.length input (List.replicate 16 0xff) false with hr
  set lb := r.1 ++ List.replicate (16 - r.1.length) 0 with hlb
  set w2 := encrypt_then_xor aes lb r.2.1 with hw2
  set w3 := if r.2.2 then encrypt_then_xor aes (List.replicate 16 0) w2 else w2 with hw3
  set w4 := encrypt_then_xor aes (mac_pad input.length) w3 with hw4
  have h1 := securid_mac_loop_good aes hg input.length input (List.replicate 16 0xff) false
    (by simp) (by
      intro x hx
      rw [(List.mem_replicate.mp hx).2]
      norm_num)
  rw [← hr] at h1
  have h2 := encrypt_then_xor_good aes hg lb r.2.1 h1.1 h1.2
  rw [← hw2] at h2
  have h3 : w3.length = 16 ∧ ∀ x ∈ w3, x < 256 := by
    rw [hw3]
    split
    · exact encrypt_then_xor_good aes hg _ w2 h2.1 h2.2
    · exact h2
  have h4 := encrypt_then_xor_good aes hg (mac_pad input.length) w3 h3.1 h3.2
  rw [← hw4] at h4
  exact encrypt_then_xor_good aes hg w4 w4 h4.1 h4.2

theorem securid_shortmac_lt (aes : List Nat → List Nat → List Nat) (hg : GoodCipher aes)
    (input : List Nat) : securid_shortmac aes input < 2 ^ 15 := by
  obtain ⟨-, hb⟩ := securid_mac_good aes hg input
  have h0 : (securid_mac aes input).getD 0 0 < 256 := getD_lt_256 _ hb 0
  have h1 : (securid_mac aes input).getD 1 0 < 256 := getD_lt_256 _ hb 1
  show ((securid_mac aes input).getD 0 0 <<< 7 ||| (securid_mac aes input).getD 1 0 >>> 1) <
    2 ^ 15
  apply Nat.or_lt_two_pow
  · rw [Nat.shiftLeft_eq]
    have e7 : (2 : Nat) ^ 7 = 128 := by norm_num
    have e15 : (2 : Nat) ^ 15 = 32768 := by norm_num
    rw [e7, e15]
    omega
  · rw [Nat.shiftRight_eq_div_pow]
    have e1 : (2 : Nat) ^ 1 = 2 := by norm_num
    have e15 : (2 : Nat) ^ 15 = 32768 := by norm_num
    rw [e1, e15]
    omega

/-! ## Three-bit groups and field extraction -/

theorem streamGroup_lt (buf : List Nat) (p : Nat) : streamGroup buf p < 8 := by
  unfold streamGroup
  split_ifs <;> norm_num

theorem four_two_one_testBits : ∀ a b c : Bool,
    ((4 * (if a then 1 else 0) + 2 * (if b then 1 else 0) + (if c then 1 else 0) :
        Nat).testBit 2 = a ∧
     (4 * (if a then 1 else 0) + 2 * (if b then 1 else 0) + (if c then 1 else 0) :
        Nat).testBit 1 = b ∧
     (4 * (if a then 1 else 0) + 2 * (if b then 1 else 0) + (if c then 1 else 0) :
        Nat).testBit 0 = c) := by
  decide

theorem streamGroup_testBit (buf : List Nat) (p k : Nat) (hk : k < 3) :
    (streamGroup buf p).testBit (2 - k) = streamBit buf (p + k) := by
  obtain ⟨h2, h1, h0⟩ := four_two_one_testBits (streamBit buf p) (streamBit buf (p + 1))
    (streamBit buf (p + 2))
  have hk3 : k = 0 ∨ k = 1 ∨ k = 2 := by omega
  rcases hk3 with rfl | rfl | rfl
  · rw [Nat.add_zero]
    exact h2
  · exact h1
  · exact h0

theorem numinput_of_groups (dbuf : List Nat) (input : List Nat) (n_bits nc : Nat)
    (hnc : n_bits / TOKEN_BITS_PER_CHAR = nc)
    (htake : input.take nc = (List.range nc).map (fun j => streamGroup dbuf (3 * j) + 48))
    (m : Nat) :
    streamBit (numinput_to_bits input n_bits) m =
      (decide (m < 3 * nc) && streamBit dbuf m) := by
  obtain ⟨-, -, hstream⟩ := numinput_to_bits_spec input n_bits
  rw [hstream m, hnc, htake, List.length_map, List.length_range]
  by_cases hm : m < 3 * nc
  · rw [decide_eq_true hm, Bool.true_and, Bool.true_and]
    rw [getD_map_range _ nc (m / 3) (by omega)]
    rw [Nat.add_sub_cancel]
    have hlt8 : streamGroup dbuf (3 * (m / 3)) < 8 := streamGroup_lt _ _
    have h7 : streamGroup dbuf (3 * (m / 3)) &&& 0x07 = streamGroup dbuf (3 * (m / 3)) := by
      have he : (0x07 : Nat) = 2 ^ 3 - 1 := by norm_num
      rw [he, Nat.and_pow_two_sub_one_eq_mod]
      exact Nat.mod_eq_of_lt (by simpa using hlt8)
    rw [h7, streamGroup_testBit dbuf _ (m % 3) (by omega)]
    congr 1
    omega
  · rw [decide_eq_false hm, Bool.false_and, Bool.false_and]

theorem get_bits_field (buf : List Nat) (hb : ∀ x ∈ buf, x < 256) (s n v : Nat)
    (hn : n ≤ 32) (hv : v < 2 ^ n)
    (h : ∀ j, j < n → streamBit buf (s + j) = v.testBit (n - 1 - j)) :
    get_bits buf s n = v := by
  rw [get_bits_spec buf hb s n hn]
  unfold streamBits
  rw [List.map_congr_left (fun j hj => h j (List.mem_range.mp hj))]
  rw [bitsVal_testBits, Nat.mod_eq_of_lt hv]

theorem streamBit_take (l : List Nat) (k m : Nat) :
    streamBit (l.take k) m = (decide (m < 8 * k) && streamBit l m) := by
  unfold streamBit
  by_cases h : m / 8 < k
  · have hg : (l.take k).getD (m / 8) 0 = l.getD (m / 8) 0 := by
      rw [List.getD_eq_getElem?_getD, List.getD_eq_getElem?_getD, List.getElem?_take,
        if_pos h]
    rw [hg, decide_eq_true (show m < 8 * k by omega), Bool.true_and]
  · have hg : (l.take k).getD (m / 8) 0 = 0 := by
      rw [List.getD_eq_getElem?_getD, List.getElem?_take, if_neg h]
      rfl
    rw [hg, decide_eq_false (show ¬m < 8 * k by omega), Bool.false_and, Nat.zero_testBit]

theorem bytes_eq_of_streamBit (a b : List Nat) (ha : ∀ x ∈ a, x < 256)
    (hb : ∀ x ∈ b, x < 256) (hlen : a.length = b.length)
    (h : ∀ m, streamBit a m = streamBit b m) : a = b := by
  apply List.ext_getElem hlen
  intro i h1 h2
  apply Nat.eq_of_testBit_eq
  intro k
  by_cases hk : k < 8
  · have hm := h (8 * i + (7 - k))
    unfold streamBit at hm
    rw [show (8 * i + (7 - k)) / 8 = i from by omega,
        show (8 * i + (7 - k)) % 8 = 7 - k from by omega,
        show 7 - (7 - k) = k from by omega] at hm
    have hga : a.getD i 0 = a[i] := by
      rw [List.getD_eq_getElem?_getD, List.getElem?_eq_getElem h1]
      rfl
    have hgb : b.getD i 0 = b[i] := by
      rw [List.getD_eq_getElem?_getD, List.getElem?_eq_getElem h2]
      rfl
    rw [hga, hgb] at hm
    exact hm
  · have hba : a[i] < 2 ^ k := lt_of_lt_of_le (ha _ (List.getElem_mem h1))
      (le_trans (by norm_num) (Nat.pow_le_pow_right (by norm_num) (by omega : 8 ≤ k)))
    have hbb : b[i] < 2 ^ k := lt_of_lt_of_le (hb _ (List.getElem_mem h2))
      (le_trans (by norm_num) (Nat.pow_le_pow_right (by norm_num) (by omega : 8 ≤ k)))
    rw [Nat.testBit_lt_two_pow hba, Nat.testBit_lt_two_pow hbb]

/-! ## Decoding an encoded token -/

theorem decode_of_encoded (aes : List Nat → List Nat → List Nat) (hg : GoodCipher aes)
    (serial enc : List Nat) (flags exp sm dih : Nat) (t0 : SecuridToken)
    (hs : serial.length = 12) (hencl : enc.length = 16) (hencb : ∀ x ∈ enc, x < 256)
    (hflags : flags < 2 ^ 16) (hexp : exp < 2 ^ 14) (hsm : sm < 2 ^ 15) (hdih : dih < 2 ^ 15)
    (d4 out1 : List Nat) (mac : Nat) (d5 out : List Nat)
    (hd4 : d4 = set_bits (set_bits (set_bits (set_bits (enc ++ List.replicate 17 0)
      128 16 flags) 144 14 exp) 159 15 sm) 174 15 dih)
    (hout1 : out1 = (50 :: serial) ++ bits_to_numoutput d4 BINENC_BITS)
    (hmacd : mac = securid_shortmac aes (out1.take CHECKSUM_OFS))
    (hd5d : d5 = set_bits d4 0 15 mac)
    (hout : out = out1 ++ bits_to_numoutput d5 CHECKSUM_BITS) :
    (securid_decode_token aes out t0).1 = SecuridErr.none ∧
    (securid_decode_token aes out t0).2.serial = serial ∧
    (securid_decode_token aes out t0).2.enc_seed = enc ∧
    (securid_decode_token aes out t0).2.flags = flags ∧
    (securid_decode_token aes out t0).2.exp_date = exp ∧
    (securid_decode_token aes out t0).2.dec_seed_hash = sm ∧
    (securid_decode_token aes out t0).2.device_id_hash = dih ∧
    out.getD 0 0 = 50 := by
  have hd0l : (enc ++ List.replicate 17 (0 : Nat)).length = 33 := by
    rw [List.length_append, hencl, List.length_replicate]
  have hd0b : ∀ x ∈ enc ++ List.replicate 17 (0 : Nat), x < 256 := by
    intro x hx
    rcases List.mem_append.mp hx with h | h
    · exact hencb x h
    · rw [(List.mem_replicate.mp h).2]
      norm_num
  have hl1 : (set_bits (enc ++ List.replicate 17 0) 128 16 flags).length = 33 := by
    rw [set_bits_length, hd0l]
  have hl2 : (set_bits (set_bits (enc ++ List.replicate 17 0) 128 16 flags)
      144 14 exp).length = 33 := by
    rw [set_bits_length, hl1]
  have hl3 : (set_bits (set_bits (set_bits (enc ++ List.replicate 17 0) 128 16 flags)
      144 14 exp) 159 15 sm).length = 33 := by
    rw [set_bits_length, hl2]
  have hd4l : d4.length = 33 := by
    rw [hd4, set_bits_length, hl3]
  have hd4b : ∀ x ∈ d4, x < 256 := by
    rw [hd4]
    exact set_bits_bytes _ (set_bits_bytes _ (set_bits_bytes _ (set_bits_bytes _ hd0b _ _ _)
      _ _ _) _ _ _) _ _ _
  have e4 := fun m => set_bits_stream (set_bits (set_bits (set_bits
      (enc ++ List.replicate 17 0) 128 16 flags) 144 14 exp) 159 15 sm) 174 15 dih
      (by norm_num) (by rw [hl3]; norm_num) m
  have e3 := fun m => set_bits_stream (set_bits (set_bits (enc ++ List.replicate 17 0)
      128 16 flags) 144 14 exp) 159 15 sm (by norm_num) (by rw [hl2]; norm_num) m
  have e2 := fun m => set_bits_stream (set_bits (enc ++ List.replicate 17 0) 128 16 flags)
      144 14 exp (by norm_num) (by rw [hl1]; norm_num) m
  have e1 := fun m => set_bits_stream (enc ++ List.replicate 17 0) 128 16 flags
      (by norm_num) (by rw [hd0l]; norm_num) m
  have hfl : ∀ j, j < 16 → streamBit d4 (128 + j) = flags.testBit (15 - j) := by
    intro j hj
    rw [hd4, e4 (128 + j),
      if_neg (show ¬(174 ≤ 128 + j ∧ 128 + j < 174 + 15) from by omega),
      e3 (128 + j),
      if_neg (show ¬(159 ≤ 128 + j ∧ 128 + j < 159 + 15) from by omega),
      e2 (128 + j),
      if_neg (show ¬(144 ≤ 128 + j ∧ 128 + j < 144 + 14) from by omega),
      e1 (128 + j),
      if_pos (show 128 ≤ 128 + j ∧ 128 + j < 128 + 16 from by omega),
      show (16 - 1 - (128 + j - 128)) = 15 - j from by omega]
  have hexp' : ∀ j, j < 14 → streamBit d4 (144 + j) = exp.testBit (13 - j) := by
    intro j hj
    rw [hd4, e4 (144 + j),
      if_neg (show ¬(174 ≤ 144 + j ∧ 144 + j < 174 + 15) from by omega),
      e3 (144 + j),
      if_neg (show ¬(159 ≤ 144 + j ∧ 144 + j < 159 + 15) from by omega),
      e2 (144 + j),
      if_pos (show 144 ≤ 144 + j ∧ 144 + j < 144 + 14 from by omega),
      show (14 - 1 - (144 + j - 144)) = 13 - j from by omega]
  have hsm' : ∀ j, j < 15 → streamBit d4 (159 + j) = sm.testBit (14 - j) := by
    intro j hj
    rw [hd4, e4 (159 + j),
      if_neg (show ¬(174 ≤ 159 + j ∧ 159 + j < 174 + 15) from by omega),
      e3 (159 + j),
      if_pos (show 159 ≤ 159 + j ∧ 159 + j < 159 + 15 from by omega),
      show (15 - 1 - (159 + j - 159)) = 14 - j from by omega]
  have hdih' : ∀ j, j < 15 → streamBit d4 (174 + j) = dih.testBit (14 - j) := by
    intro j hj
    rw [hd4, e4 (174 + j),
      if_pos (show 174 ≤ 174 + j ∧ 174 + j < 174 + 15 from by omega),
      show (15 - 1 - (174 + j - 174)) = 14 - j from by omega]
  have hlo : ∀ m, m < 128 → streamBit d4 m = streamBit enc m := by
    intro m hm
    rw [hd4, e4 m, if_neg (show ¬(174 ≤ m ∧ m < 174 + 15) from by omega),
      e3 m, if_neg (show ¬(159 ≤ m ∧ m < 159 + 15) from by omega),
      e2 m, if_neg (show ¬(144 ≤ m ∧ m < 144 + 14) from by omega),
      e1 m, if_neg (show ¬(128 ≤ m ∧ m < 128 + 16) from by omega)]
    unfold streamBit
    rw [List.getD_append _ _ _ _ (show m / 8 < enc.length from by omega)]
  have henc_hi : ∀ m, 128 ≤ m → streamBit enc m = false := by
    intro m hm
    unfold streamBit
    rw [List.getD_eq_default _ _ (show enc.length ≤ m / 8 from by omega), Nat.zero_testBit]
  have hpayload : bits_to_numoutput d4 BINENC_BITS =
      (List.range 63).map (fun j => streamGroup d4 (3 * j) + 48) := by
    rw [bits_to_numoutput_spec d4 hd4b]
    rfl
  have hout1len : out1.length = 76 := by
    rw [hout1, List.length_append, List.length_cons, hs, hpayload, List.length_map,
      List.length_range]
  have hd5l : d5.length = 33 := by
    rw [hd5d, set_bits_length, hd4l]
  have hd5b : ∀ x ∈ d5, x < 256 := by
    rw [hd5d]
    exact set_bits_bytes _ hd4b _ _ _
  have hcs : bits_to_numoutput d5 CHECKSUM_BITS =
      (List.range 5).map (fun j => streamGroup d5 (3 * j) + 48) := by
    rw [bits_to_numoutput_spec d5 hd5b]
    rfl
  have hcslen : (bits_to_numoutput d5 CHECKSUM_BITS).length = 5 := by
    rw [hcs, List.length_map, List.length_range]
  have houtlen : out.length = 81 := by
    rw [hout, List.length_append, hout1len, hcslen]
  have hout0 : out.getD 0 0 = 50 := by
    rw [hout, hout1]
    rfl
  have hdrop76 : out.drop (out.length - CHECKSUM_CHARS) =
      bits_to_numoutput d5 CHECKSUM_BITS := by
    rw [houtlen, show (81 - CHECKSUM_CHARS) = out1.length from by rw [hout1len]; decide,
      hout, List.drop_left]
  have htake76 : out.take (out.length - CHECKSUM_CHARS) = out1 := by
    rw [houtlen, show (81 - CHECKSUM_CHARS) = out1.length from by rw [hout1len]; decide,
      hout, List.take_left]
  have htakeCS : out1.take CHECKSUM_OFS = out1 :=
    List.take_of_length_le (by rw [hout1len]; decide)
  have hmac_lt : mac < 2 ^ 15 := by
    rw [hmacd]
    exact securid_shortmac_lt aes hg _
  have hd5stream : ∀ j, j < 15 → streamBit d5 j = mac.testBit (14 - j) := by
    intro j hj
    rw [hd5d, set_bits_stream d4 0 15 mac (by norm_num) (by rw [hd4l]; norm_num) j,
      if_pos (show 0 ≤ j ∧ j < 0 + 15 from ⟨Nat.zero_le _, by omega⟩),
      show (15 - 1 - (j - 0)) = 14 - j from by omega]
  have hcs_take : (bits_to_numoutput d5 CHECKSUM_BITS).take 5 =
      (List.range 5).map (fun j => streamGroup d5 (3 * j) + 48) := by
    rw [hcs]
    exact List.take_of_length_le (le_of_eq (by rw [List.length_map, List.length_range]))
  have hNcs := fun m => numinput_of_groups d5 (bits_to_numoutput d5 CHECKSUM_BITS) 15 5
    rfl hcs_take m
  have htok : get_bits (numinput_to_bits (out.drop (out.length - CHECKSUM_CHARS)) 15)
      0 15 = mac := by
    rw [hdrop76]
    apply get_bits_field _ (numinput_to_bits_spec _ 15).2.1 0 15 mac (by norm_num) hmac_lt
    intro j hj
    rw [Nat.zero_add, hNcs j, decide_eq_true (show j < 3 * 5 from by omega), Bool.true_and,
      hd5stream j hj]
  have hdrop13 : out.drop BINENC_OFS =
      bits_to_numoutput d4 BINENC_BITS ++ bits_to_numoutput d5 CHECKSUM_BITS := by
    rw [hout, hout1, List.append_assoc,
      show BINENC_OFS = ((50 :: serial) : List Nat).length from by
        rw [List.length_cons, hs]; decide,
      List.drop_left]
  have hptake : (bits_to_numoutput d4 BINENC_BITS ++
      bits_to_numoutput d5 CHECKSUM_BITS).take 63 =
      (List.range 63).map (fun j => streamGroup d4 (3 * j) + 48) := by
    rw [List.take_append_of_le_length
      (le_of_eq (by rw [hpayload, List.length_map, List.length_range])), hpayload]
    exact List.take_of_length_le (le_of_eq (by rw [List.length_map, List.length_range]))
  have hNpay := fun m => numinput_of_groups d4 (bits_to_numoutput d4 BINENC_BITS ++
    bits_to_numoutput d5 CHECKSUM_BITS) BINENC_BITS 63 rfl hptake m
  have hNlen : (numinput_to_bits (bits_to_numoutput d4 BINENC_BITS ++
      bits_to_numoutput d5 CHECKSUM_BITS) BINENC_BITS).length = 24 :=
    (numinput_to_bits_spec _ BINENC_BITS).1
  have hNb := (numinput_to_bits_spec (bits_to_numoutput d4 BINENC_BITS ++
    bits_to_numoutput d5 CHECKSUM_BITS) BINENC_BITS).2.1
  have hseed : (numinput_to_bits (bits_to_numoutput d4 BINENC_BITS ++
      bits_to_numoutput d5 CHECKSUM_BITS) BINENC_BITS).take AES_KEY_SIZE = enc := by
    apply bytes_eq_of_streamBit
    · intro x hx
      exact hNb x (List.mem_of_mem_take hx)
    · exact hencb
    · rw [List.length_take, hNlen, hencl]
      decide
    · intro m
      rw [streamBit_take]
      by_cases hm : m < 128
      · rw [decide_eq_true (show m < 8 * AES_KEY_SIZE from by
            rw [show (8 * AES_KEY_SIZE) = 128 from rfl]; exact hm), Bool.true_and,
          hNpay m, decide_eq_true (show m < 3 * 63 from by omega), Bool.true_and, hlo m hm]
      · rw [decide_eq_false (show ¬m < 8 * AES_KEY_SIZE from by
            rw [show (8 * AES_KEY_SIZE) = 128 from rfl]; exact hm), Bool.false_and,
          henc_hi m (by omega)]
  have hflagsF : get_bits (numinput_to_bits (bits_to_numoutput d4 BINENC_BITS ++
      bits_to_numoutput d5 CHECKSUM_BITS) BINENC_BITS) 128 16 = flags := by
    apply get_bits_field _ hNb 128 16 flags (by norm_num) hflags
    intro j hj
    rw [hNpay (128 + j), decide_eq_true (show 128 + j < 3 * 63 from by omega),
      Bool.true_and, hfl j hj]
  have hexpF : get_bits (numinput_to_bits (bits_to_numoutput d4 BINENC_BITS ++
      bits_to_numoutput d5 CHECKSUM_BITS) BINENC_BITS) 144 14 = exp := by
    apply get_bits_field _ hNb 144 14 exp (by norm_num) hexp
    intro j hj
    rw [hNpay (144 + j), decide_eq_true (show 144 + j < 3 * 63 from by omega),
      Bool.true_and, hexp' j hj]
  have hsmF : get_bits (numinput_to_bits (bits_to_numoutput d4 BINENC_BITS ++
      bits_to_numoutput d5 CHECKSUM_BITS) BINENC_BITS) 159 15 = sm := by
    apply get_bits_field _ hNb 159 15 sm (by norm_num) hsm
    intro j hj
    rw [hNpay (159 + j), decide_eq_true (show 159 + j < 3 * 63 from by omega),
      Bool.true_and, hsm' j hj]
  have hdihF : get_bits (numinput_to_bits (bits_to_numoutput d4 BINENC_BITS ++
      bits_to_numoutput d5 CHECKSUM_BITS) BINENC_BITS) 174 15 = dih := by
    apply get_bits_field _ hNb 174 15 dih (by norm_num) hdih
    intro j hj
    rw [hNpay (174 + j), decide_eq_true (show 174 + j < 3 * 63 from by omega),
      Bool.true_and, hdih' j hj]
  have hser : (out.drop VER_CHARS).take SERIAL_CHARS = serial := by
    rw [hout, hout1, List.append_assoc, List.cons_append,
      show VER_CHARS = 1 from rfl, List.drop_one, List.tail_cons,
      show SERIAL_CHARS = 12 from rfl,
      List.take_append_of_le_length (by omega), ← hs, List.take_length]
  have hdec : securid_decode_token aes out t0 = (SecuridErr.none,
      { zeroToken with
        serial := (out.drop VER_CHARS).take SERIAL_CHARS,
        enc_seed := (numinput_to_bits (out.drop BINENC_OFS) BINENC_BITS).take AES_KEY_SIZE,
        has_enc_seed := true,
        flags := get_bits (numinput_to_bits (out.drop BINENC_OFS) BINENC_BITS) 128 16,
        exp_date := get_bits (numinput_to_bits (out.drop BINENC_OFS) BINENC_BITS) 144 14,
        dec_seed_hash := get_bits (numinput_to_bits (out.drop BINENC_OFS) BINENC_BITS)
          159 15,
        device_id_hash := get_bits (numinput_to_bits (out.drop BINENC_OFS) BINENC_BITS)
          174 15 }) := by
    simp only [securid_decode_token]
    rw [if_neg (show ¬((decide (out.length < MIN_TOKEN_CHARS) ||
        decide (out.length > MAX_TOKEN_CHARS)) = true) from by
      rw [houtlen]; decide)]
    rw [if_neg (show ¬((decide (out.getD 0 0 ≠ 49) && decide (out.getD 0 0 ≠ 50)) = true)
        from by rw [hout0]; decide)]
    rw [htok, htake76, hmacd, htakeCS]
    rw [if_neg (show ¬(securid_shortmac aes out1 ≠ securid_shortmac aes out1) from
      fun h => h rfl)]
  refine ⟨?_, ?_, ?_, ?_, ?_, ?_, ?_, hout0⟩
  · rw [hdec]
  · rw [hdec]
    exact hser
  · rw [hdec]
    show (numinput_to_bits (out.drop BINENC_OFS) BINENC_BITS).take AES_KEY_SIZE = enc
    rw [hdrop13]
    exact hseed
  · rw [hdec]
    show get_bits (numinput_to_bits (out.drop BINENC_OFS) BINENC_BITS) 128 16 = flags
    rw [hdrop13]
    exact hflagsF
  · rw [hdec]
    show get_bits (numinput_to_bits (out.drop BINENC_OFS) BINENC_BITS) 144 14 = exp
    rw [hdrop13]
    exact hexpF
  · rw [hdec]
    show get_bits (numinput_to_bits (out.drop BINENC_OFS) BINENC_BITS) 159 15 = sm
    rw [hdrop13]
    exact hsmF
  · rw [hdec]
    show get_bits (numinput_to_bits (out.drop BINENC_OFS) BINENC_BITS) 174 15 = dih
    rw [hdrop13]
    exact hdihF

theorem generate_key_hash_dih_lt (aes : List Nat → List Nat → List Nat) (hg : GoodCipher aes)
    (pass devid : Option (List Nat)) (is_sm : Bool) (kh : List Nat) (dih : Nat)
    (h : generate_key_hash aes pass devid is_sm = .ok (kh, dih)) : dih < 2 ^ 15 := by
  rw [generate_key_hash_eq] at h
  split at h
  · exact Except.noConfusion h
  · split at h <;> split at h <;>
      first
      | exact Except.noConfusion h
      | (injection h with h1
         injection h1 with h2 h3
         rw [← h3]
         exact securid_shortmac_lt aes hg _)

theorem decode_encode_fields (aes : List Nat → List Nat → List Nat) (hg : GoodCipher aes)
    (t t0 : SecuridToken) (kh : List Nat) (dih f : Nat)
    (hserial : t.serial.length = 12) (hexp : t.exp_date < 2 ^ 14)
    (hdsh : t.dec_seed_hash = securid_shortmac aes t.dec_seed)
    (hf : f < 2 ^ 16) (hdih : dih < 2 ^ 15) (out : List Nat) (newt : SecuridToken)
    (hout : out = ((50 :: t.serial) ++ bits_to_numoutput
        (set_bits (set_bits (set_bits (set_bits (aes kh t.dec_seed ++
          List.replicate (MAX_TOKEN_BITS / 8 + 2 - 16) 0) 128 16 f) 144 14 t.exp_date)
          159 15 (securid_shortmac aes t.dec_seed)) 174 15 dih) BINENC_BITS) ++
      bits_to_numoutput (set_bits
        (set_bits (set_bits (set_bits (set_bits (aes kh t.dec_seed ++
          List.replicate (MAX_TOKEN_BITS / 8 + 2 - 16) 0) 128 16 f) 144 14 t.exp_date)
          159 15 (securid_shortmac aes t.dec_seed)) 174 15 dih)
        0 15 (securid_shortmac aes (((50 :: t.serial) ++ bits_to_numoutput
          (set_bits (set_bits (set_bits (set_bits (aes kh t.dec_seed ++
            List.replicate (MAX_TOKEN_BITS / 8 + 2 - 16) 0) 128 16 f) 144 14 t.exp_date)
            159 15 (securid_shortmac aes t.dec_seed)) 174 15 dih) BINENC_BITS).take
          CHECKSUM_OFS))) CHECKSUM_BITS)
    (hnewt : newt = { t with device_id_hash := dih, flags := f, enc_seed := aes kh t.dec_seed }) :
    out.getD 0 0 = 50 ∧
    (securid_decode_token aes out t0).1 = SecuridErr.none ∧
    (securid_decode_token aes out t0).2.enc_seed = newt.enc_seed ∧
    (securid_decode_token aes out t0).2.flags = newt.flags ∧
    (securid_decode_token aes out t0).2.exp_date = newt.exp_date ∧
    (securid_decode_token aes out t0).2.device_id_hash = newt.device_id_hash ∧
    (securid_decode_token aes out t0).2.dec_seed_hash = newt.dec_seed_hash ∧
    (securid_decode_token aes out t0).2.serial = newt.serial := by
  obtain ⟨P1, P2, P3, P4, P5, P6, P7, P8⟩ := decode_of_encoded aes hg t.serial
    (aes kh t.dec_seed) f t.exp_date (securid_shortmac aes t.dec_seed) dih t0
    hserial (hg kh t.dec_seed).1 (hg kh t.dec_seed).2 hf hexp
    (securid_shortmac_lt aes hg t.dec_seed) hdih _ _ _ _ out rfl rfl rfl rfl
    (by rw [hout]; rfl)
  rw [hnewt]
  exact ⟨P8, P1, P3, P4, P5, P7, hdsh.symm ▸ P6, P2⟩

set_option maxRecDepth 100000 in
/-- C2 (counterexample): a token whose stored `dec_seed_hash` (0) does
not match the short MAC of its cleartext seed satisfies every
precondition the claim states (12-digit serial, cleartext seed,
in-range flags and exp_date), yet decoding its encoding yields a record
whose `dec_seed_hash` — recomputed from the seed during encoding —
differs from that of the record encode produced. -/
theorem c2_counterexample :
    securid_encode_token toyEnc sampleToken none none =
      .ok ([50, 48, 49, 50, 51, 52, 53, 54, 55, 56, 57, 48, 49, 48, 52, 50, 49, 50, 52, 51,
        49, 49, 53, 50, 51, 50, 52, 54, 53, 48, 54, 50, 49, 54, 52, 52, 49, 49, 49, 50, 50,
        52, 52, 53, 53, 49, 52, 50, 51, 50, 52, 55, 49, 49, 49, 50, 48, 48, 48, 48, 48, 48,
        48, 48, 48, 48, 48, 48, 48, 48, 52, 48, 48, 48, 48, 48, 48, 49, 48, 49, 48],
        { sampleToken with
          enc_seed := [17, 21, 25, 53, 53, 53, 25, 29, 33, 37, 41, 45, 49, 53, 57, 37] }) ∧
    sampleToken.serial.length = 12 ∧ sampleToken.flags < 2 ^ 16 ∧
    sampleToken.exp_date < 2 ^ 14 ∧
    (securid_decode_token toyEnc
      [50, 48, 49, 50, 51, 52, 53, 54, 55, 56, 57, 48, 49, 48, 52, 50, 49, 50, 52, 51,
        49, 49, 53, 50, 51, 50, 52, 54, 53, 48, 54, 50, 49, 54, 52, 52, 49, 49, 49, 50, 50,
        52, 52, 53, 53, 49, 52, 50, 51, 50, 52, 55, 49, 49, 49, 50, 48, 48, 48, 48, 48, 48,
        48, 48, 48, 48, 48, 48, 48, 48, 52, 48, 48, 48, 48, 48, 48, 49, 48, 49, 48]
      zeroToken).1 = SecuridErr.none ∧
    (securid_decode_token toyEnc
      [50, 48, 49, 50, 51, 52, 53, 54, 55, 56, 57, 48, 49, 48, 52, 50, 49, 50, 52, 51,
        49, 49, 53, 50, 51, 50, 52, 54, 53, 48, 54, 50, 49, 54, 52, 52, 49, 49, 49, 50, 50,
        52, 52, 53, 53, 49, 52, 50, 51, 50, 52, 55, 49, 49, 49, 50, 48, 48, 48, 48, 48, 48,
        48, 48, 48, 48, 48, 48, 48, 48, 52, 48, 48, 48, 48, 48, 48, 49, 48, 49, 48]
      zeroToken).2.dec_seed_hash ≠
      ({ sampleToken with
        enc_seed := [17, 21, 25, 53, 53, 53, 25, 29, 33, 37, 41, 45, 49, 53, 57, 37] } :
        SecuridToken).dec_seed_hash := by
  decide

/-- C2 (amended): for every token record with a 12-decimal-digit
serial, a cleartext seed, in-range `flags` and `exp_date`, *and a
`dec_seed_hash` equal to the short MAC of that seed* (the invariant
`securid_decrypt_seed` establishes), and every password/device-id pair
for which encoding succeeds, decoding the emitted string succeeds and
returns a record whose `enc_seed`, `flags`, `exp_date`,
`device_id_hash`, `dec_seed_hash` and `serial` equal those of the
record encode produced; the emitted string always starts with `'2'`. -/
theorem c2_codec_round_trip (aes : List Nat → List Nat → List Nat) (hg : GoodCipher aes)
    (t : SecuridToken) (pass devid : Option (List Nat)) (out : List Nat)
    (newt t0 : SecuridToken)
    (henc : securid_encode_token aes t pass devid = .ok (out, newt))
    (hserial : t.serial.length = 12) (hflags : t.flags < 2 ^ 16)
    (hexp : t.exp_date < 2 ^ 14)
    (hdsh : t.dec_seed_hash = securid_shortmac aes t.dec_seed) :
    out.getD 0 0 = 50 ∧
    (securid_decode_token aes out t0).1 = SecuridErr.none ∧
    (securid_decode_token aes out t0).2.enc_seed = newt.enc_seed ∧
    (securid_decode_token aes out t0).2.flags = newt.flags ∧
    (securid_decode_token aes out t0).2.exp_date = newt.exp_date ∧
    (securid_decode_token aes out t0).2.device_id_hash = newt.device_id_hash ∧
    (securid_decode_token aes out t0).2.dec_seed_hash = newt.dec_seed_hash ∧
    (securid_decode_token aes out t0).2.serial = newt.serial := by
  simp only [securid_encode_token] at henc
  split at henc
  next e heq => exact Except.noConfusion henc
  next kh dih heq =>
    split at henc <;> split at henc <;>
      (injection henc with h
       injection h with hOut hNewt
       refine decode_encode_fields aes hg t t0 kh dih _ hserial hexp hdsh ?_
         (generate_key_hash_dih_lt aes hg _ _ t.is_smartphone _ _ heq) out newt
         hOut.symm hNewt.symm
       first
       | exact Nat.or_lt_two_pow (Nat.or_lt_two_pow hflags (by decide)) (by decide)
       | exact Nat.or_lt_two_pow (Nat.lt_of_le_of_lt Nat.and_le_left hflags) (by decide)
       | exact Nat.lt_of_le_of_lt Nat.and_le_left (Nat.or_lt_two_pow hflags (by decide))
       | exact Nat.lt_of_le_of_lt Nat.and_le_left
           (Nat.lt_of_le_of_lt Nat.and_le_left hflags))

set_option maxRecDepth 100000 in
theorem c2_encode_eval :
    securid_encode_token toyEnc c2tok none none =
      .ok ([50, 48, 49, 50, 51, 52, 53, 54, 55, 56, 57, 48, 49, 48, 52, 50, 49, 50, 52, 51,
        49, 49, 53, 50, 51, 50, 52, 54, 53, 48, 54, 50, 49, 54, 52, 52, 49, 49, 49, 50, 50,
        52, 52, 53, 53, 49, 52, 50, 51, 50, 52, 55, 49, 49, 49, 50, 48, 48, 48, 50, 49, 50,
        51, 52, 50, 48, 48, 48, 48, 48, 52, 48, 48, 48, 48, 48, 48, 50, 48, 49, 48],
        { c2tok with
          enc_seed := [17, 21, 25, 53, 53, 53, 25, 29, 33, 37, 41, 45, 49, 53, 57, 37] }) := by
  decide

theorem c2_codec_round_trip_witness :
    ([50, 48, 49, 50, 51, 52, 53, 54, 55, 56, 57, 48, 49, 48, 52, 50, 49, 50, 52, 51,
      49, 49, 53, 50, 51, 50, 52, 54, 53, 48, 54, 50, 49, 54, 52, 52, 49, 49, 49, 50, 50,
      52, 52, 53, 53, 49, 52, 50, 51, 50, 52, 55, 49, 49, 49, 50, 48, 48, 48, 50, 49, 50,
      51, 52, 50, 48, 48, 48, 48, 48, 52, 48, 48, 48, 48, 48, 48, 50, 48, 49, 48] :
      List Nat).getD 0 0 = 50 ∧
    (securid_decode_token toyEnc
      [50, 48, 49, 50, 51, 52, 53, 54, 55, 56, 57, 48, 49, 48, 52, 50, 49, 50, 52, 51,
        49, 49, 53, 50, 51, 50, 52, 54, 53, 48, 54, 50, 49, 54, 52, 52, 49, 49, 49, 50, 50,
        52, 52, 53, 53, 49, 52, 50, 51, 50, 52, 55, 49, 49, 49, 50, 48, 48, 48, 50, 49, 50,
        51, 52, 50, 48, 48, 48, 48, 48, 52, 48, 48, 48, 48, 48, 48, 50, 48, 49, 48]
      zeroToken).1 = SecuridErr.none ∧
    (securid_decode_token toyEnc
      [50, 48, 49, 50, 51, 52, 53, 54, 55, 56, 57, 48, 49, 48, 52, 50, 49, 50, 52, 51,
        49, 49, 53, 50, 51, 50, 52, 54, 53, 48, 54, 50, 49, 54, 52, 52, 49, 49, 49, 50, 50,
        52, 52, 53, 53, 49, 52, 50, 51, 50, 52, 55, 49, 49, 49, 50, 48, 48, 48, 50, 49, 50,
        51, 52, 50, 48, 48, 48, 48, 48, 52, 48, 48, 48, 48, 48, 48, 50, 48, 49, 48]
      zeroToken).2.enc_seed =
      ({ c2tok with
        enc_seed := [17, 21, 25, 53, 53, 53, 25, 29, 33, 37, 41, 45, 49, 53, 57, 37] } :
        SecuridToken).enc_seed ∧
    (securid_decode_token toyEnc
      [50, 48, 49, 50, 51, 52, 53, 54, 55, 56, 57, 48, 49, 48, 52, 50, 49, 50, 52, 51,
        49, 49, 53, 50, 51, 50, 52, 54, 53, 48, 54, 50, 49, 54, 52, 52, 49, 49, 49, 50, 50,
        52, 52, 53, 53, 49, 52, 50, 51, 50, 52, 55, 49, 49, 49, 50, 48, 48, 48, 50, 49, 50,
        51, 52, 50, 48, 48, 48, 48, 48, 52, 48, 48, 48, 48, 48, 48, 50, 48, 49, 48]
      zeroToken).2.flags =
      ({ c2tok with
        enc_seed := [17, 21, 25, 53, 53, 53, 25, 29, 33, 37, 41, 45, 49, 53, 57, 37] } :
        SecuridToken).flags ∧
    (securid_decode_token toyEnc
      [50, 48, 49, 50, 51, 52, 53, 54, 55, 56, 57, 48, 49, 48, 52, 50, 49, 50, 52, 51,
        49, 49, 53, 50, 51, 50, 52, 54, 53, 48, 54, 50, 49, 54, 52, 52, 49, 49, 49, 50, 50,
        52, 52, 53, 53, 49, 52, 50, 51, 50, 52, 55, 49, 49, 49, 50, 48, 48, 48, 50, 49, 50,
        51, 52, 50, 48, 48, 48, 48, 48, 52, 48, 48, 48, 48, 48, 48, 50, 48, 49, 48]
      zeroToken).2.exp_date =
      ({ c2tok with
        enc_seed := [17, 21, 25, 53, 53, 53, 25, 29, 33, 37, 41, 45, 49, 53, 57, 37] } :
        SecuridToken).exp_date ∧
    (securid_decode_token toyEnc
      [50, 48, 49, 50, 51, 52, 53, 54, 55, 56, 57, 48, 49, 48, 52, 50, 49, 50, 52, 51,
        49, 49, 53, 50, 51, 50, 52, 54, 53, 48, 54, 50, 49, 54, 52, 52, 49, 49, 49, 50, 50,
        52, 52, 53, 53, 49, 52, 50, 51, 50, 52, 55, 49, 49, 49, 50, 48, 48, 48, 50, 49, 50,
        51, 52, 50, 48, 48, 48, 48, 48, 52, 48, 48, 48, 48, 48, 48, 50, 48, 49, 48]
      zeroToken).2.device_id_hash =
      ({ c2tok with
        enc_seed := [17, 21, 25, 53, 53, 53, 25, 29, 33, 37, 41, 45, 49, 53, 57, 37] } :
        SecuridToken).device_id_hash ∧
    (securid_decode_token toyEnc
      [50, 48, 49, 50, 51, 52, 53, 54, 55, 56, 57, 48, 49, 48, 52, 50, 49, 50, 52, 51,
        49, 49, 53, 50, 51, 50, 52, 54, 53, 48, 54, 50, 49, 54, 52, 52, 49, 49, 49, 50, 50,
        52, 52, 53, 53, 49, 52, 50, 51, 50, 52, 55, 49, 49, 49, 50, 48, 48, 48, 50, 49, 50,
        51, 52, 50, 48, 48, 48, 48, 48, 52, 48, 48, 48, 48, 48, 48, 50, 48, 49, 48]
      zeroToken).2.dec_seed_hash =
      ({ c2tok with
        enc_seed := [17, 21, 25, 53, 53, 53, 25, 29, 33, 37, 41, 45, 49, 53, 57, 37] } :
        SecuridToken).dec_seed_hash ∧
    (securid_decode_token toyEnc
      [50, 48, 49, 50, 51, 52, 53, 54, 55, 56, 57, 48, 49, 48, 52, 50, 49, 50, 52, 51,
        49, 49, 53, 50, 51, 50, 52, 54, 53, 48, 54, 50, 49, 54, 52, 52, 49, 49, 49, 50, 50,
        52, 52, 53, 53, 49, 52, 50, 51, 50, 52, 55, 49, 49, 49, 50, 48, 48, 48, 50, 49, 50,
        51, 52, 50, 48, 48, 48, 48, 48, 52, 48, 48, 48, 48, 48, 48, 50, 48, 49, 48]
      zeroToken).2.serial =
      ({ c2tok with
        enc_seed := [17, 21, 25, 53, 53, 53, 25, 29, 33, 37, 41, 45, 49, 53, 57, 37] } :
        SecuridToken).serial :=
  c2_codec_round_trip toyEnc toyEnc_good c2tok none none
    [50, 48, 49, 50, 51, 52, 53, 54, 55, 56, 57, 48, 49, 48, 52, 50, 49, 50, 52, 51,
      49, 49, 53, 50, 51, 50, 52, 54, 53, 48, 54, 50, 49, 54, 52, 52, 49, 49, 49, 50, 50,
      52, 52, 53, 53, 49, 52, 50, 51, 50, 52, 55, 49, 49, 49, 50, 48, 48, 48, 50, 49, 50,
      51, 52, 50, 48, 48, 48, 48, 48, 52, 48, 48, 48, 48, 48, 48, 50, 48, 49, 48]
    { c2tok with
      enc_seed := [17, 21, 25, 53, 53, 53, 25, 29, 33, 37, 41, 45, 49, 53, 57, 37] }
    zeroToken c2_encode_eval (by decide) (by decide) (by decide) (by decide)

/-! ## Hex rendering and parsing for the PIN cryptor -/

theorem getD_replicate_zero (k n : Nat) : (List.replicate k (0 : Nat)).getD n 0 = 0 := by
  rw [List.getD_eq_getElem?_getD, List.getElem?_replicate]
  split <;> rfl

theorem hex2byte_hex_digit : ∀ hi, hi < 16 → ∀ lo, lo < 16 →
    hex2byte (hex_digit hi) (hex_digit lo) = 16 * hi + lo := by decide

theorem hex_digit_range : ∀ v, v < 16 →
    (48 ≤ hex_digit v ∧ hex_digit v ≤ 57) ∨ (97 ≤ hex_digit v ∧ hex_digit v ≤ 102) := by
  decide

theorem bytes_hex_cons (c : Nat) (rest : List Nat) :
    bytes_hex (c :: rest) =
      hex_digit (c / 16 % 16) :: hex_digit (c % 16) :: bytes_hex rest := rfl

theorem bytes_hex_length (l : List Nat) : (bytes_hex l).length = 2 * l.length := by
  induction l with
  | nil => rfl
  | cons c rest ih =>
    rw [bytes_hex_cons, List.length_cons, List.length_cons, ih, List.length_cons]
    omega

theorem bytes_hex_getD (l : List Nat) : ∀ i, i < l.length →
    (bytes_hex l).getD (2 * i) 0 = hex_digit (l.getD i 0 / 16 % 16) ∧
    (bytes_hex l).getD (2 * i + 1) 0 = hex_digit (l.getD i 0 % 16) := by
  induction l with
  | nil =>
    intro i hi
    exact absurd hi (by simp)
  | cons c rest ih =>
    intro i hi
    cases i with
    | zero =>
      rw [bytes_hex_cons]
      exact ⟨rfl, rfl⟩
    | succ j =>
      have hj : j < rest.length := by
        rw [List.length_cons] at hi
        omega
      obtain ⟨h1, h2⟩ := ih j hj
      constructor
      · rw [bytes_hex_cons, show 2 * (j + 1) = 2 * j + 1 + 1 from by ring,
          List.getD_cons_succ, List.getD_cons_succ, List.getD_cons_succ]
        exact h1
      · rw [bytes_hex_cons, show 2 * (j + 1) + 1 = 2 * j + 1 + 1 + 1 from by ring,
          List.getD_cons_succ, List.getD_cons_succ, List.getD_cons_succ]
        exact h2

theorem bytes_hex_hexchars (l : List Nat) : ∀ c ∈ bytes_hex l,
    (48 ≤ c ∧ c ≤ 57) ∨ (97 ≤ c ∧ c ≤ 102) := by
  induction l with
  | nil =>
    intro c hc
    exact absurd hc (by simp [bytes_hex])
  | cons x rest ih =>
    intro c hc
    rw [bytes_hex_cons] at hc
    rcases List.mem_cons.mp hc with rfl | hc2
    · exact hex_digit_range _ (Nat.mod_lt _ (by norm_num))
    · rcases List.mem_cons.mp hc2 with rfl | hc3
      · exact hex_digit_range _ (Nat.mod_lt _ (by norm_num))
      · exact ih c hc3

theorem hex_parse_iv (iv ct : List Nat) (hivlen : iv.length = 16)
    (hivb : ∀ x ∈ iv, x < 256) :
    (List.range 16).map (fun i =>
      hex2byte ((bytes_hex iv ++ bytes_hex ct).getD (i * 2) 0)
        ((bytes_hex iv ++ bytes_hex ct).getD (i * 2 + 1) 0)) = iv := by
  apply List.ext_getElem (by rw [List.length_map, List.length_range, hivlen])
  intro i h1 h2
  rw [List.getElem_map, List.getElem_range]
  have hi16 : i < 16 := by
    rw [List.length_map, List.length_range] at h1
    exact h1
  have hiv : i < iv.length := by omega
  have hga : (bytes_hex iv ++ bytes_hex ct).getD (i * 2) 0 = (bytes_hex iv).getD (2 * i) 0 := by
    rw [show i * 2 = 2 * i from by ring,
      List.getD_append _ _ _ _ (show 2 * i < (bytes_hex iv).length from by
        rw [bytes_hex_length]; omega)]
  have hgb : (bytes_hex iv ++ bytes_hex ct).getD (i * 2 + 1) 0 =
      (bytes_hex iv).getD (2 * i + 1) 0 := by
    rw [show i * 2 + 1 = 2 * i + 1 from by ring,
      List.getD_append _ _ _ _ (by rw [bytes_hex_length]; omega)]
  obtain ⟨e1, e2⟩ := bytes_hex_getD iv i hiv
  rw [hga, hgb, e1, e2,
    hex2byte_hex_digit _ (Nat.mod_lt _ (by norm_num)) _ (Nat.mod_lt _ (by norm_num))]
  have hb : iv.getD i 0 < 256 := getD_lt_256 iv hivb i
  have hgd : iv.getD i 0 = iv[i] := by
    rw [List.getD_eq_getElem?_getD, List.getElem?_eq_getElem hiv]
    rfl
  rw [← hgd]
  omega

theorem hex_parse_ct (iv ct : List Nat) (hivlen : iv.length = 16) (hctlen : ct.length = 16)
    (hctb : ∀ x ∈ ct, x < 256) :
    (List.range 16).map (fun i =>
      hex2byte ((bytes_hex iv ++ bytes_hex ct).getD ((i + 16) * 2) 0)
        ((bytes_hex iv ++ bytes_hex ct).getD ((i + 16) * 2 + 1) 0)) = ct := by
  apply List.ext_getElem (by rw [List.length_map, List.length_range, hctlen])
  intro i h1 h2
  rw [List.getElem_map, List.getElem_range]
  have hi16 : i < 16 := by
    rw [List.length_map, List.length_range] at h1
    exact h1
  have hct : i < ct.length := by omega
  have hga : (bytes_hex iv ++ bytes_hex ct).getD ((i + 16) * 2) 0 =
      (bytes_hex ct).getD (2 * i) 0 := by
    rw [List.getD_append_right _ _ _ _ (by rw [bytes_hex_length, hivlen]; omega),
      bytes_hex_length, hivlen, show (i + 16) * 2 - 2 * 16 = 2 * i from by ring_nf; omega]
  have hgb : (bytes_hex iv ++ bytes_hex ct).getD ((i + 16) * 2 + 1) 0 =
      (bytes_hex ct).getD (2 * i + 1) 0 := by
    rw [List.getD_append_right _ _ _ _ (by rw [bytes_hex_length, hivlen]; omega),
      bytes_hex_length, hivlen, show (i + 16) * 2 + 1 - 2 * 16 = 2 * i + 1 from by
        ring_nf; omega]
  obtain ⟨e1, e2⟩ := bytes_hex_getD ct i hct
  rw [hga, hgb, e1, e2,
    hex2byte_hex_digit _ (Nat.mod_lt _ (by norm_num)) _ (Nat.mod_lt _ (by norm_num))]
  have hb : ct.getD i 0 < 256 := getD_lt_256 ct hctb i
  have hgd : ct.getD i 0 = ct[i] := by
    rw [List.getD_eq_getElem?_getD, List.getElem?_eq_getElem hct]
    rfl
  rw [← hgd]
  omega

theorem zipWith_xor_cancel (a b : List Nat) (h : a.length ≤ b.length) :
    List.zipWith Nat.xor (List.zipWith Nat.xor a b) b = a := by
  induction a generalizing b with
  | nil => rfl
  | cons x xs ih =>
    cases b with
    | nil =>
      rw [List.length_cons] at h
      exact absurd h (by simp)
    | cons y ys =>
      rw [List.zipWith_cons_cons, List.zipWith_cons_cons,
        show Nat.xor (Nat.xor x y) y = x from Nat.xor_cancel_right y x,
        ih ys (by
          rw [List.length_cons, List.length_cons] at h
          omega)]

theorem takeWhile_ne_zero (pin rest : List Nat) (h : ∀ c ∈ pin, c ≠ 0) :
    (pin ++ 0 :: rest).takeWhile (fun c => c ≠ 0) = pin := by
  induction pin with
  | nil =>
    rw [List.nil_append, List.takeWhile_cons, if_neg (by decide)]
  | cons x xs ih =>
    rw [List.cons_append, List.takeWhile_cons,
      if_pos (decide_eq_true (h x (List.mem_cons_self _ _))),
      ih (fun c hc => h c (List.mem_cons_of_mem _ hc))]

theorem pin_format_ok_of (pin : List Nat) (hpin4 : 4 ≤ pin.length)
    (hpin8 : pin.length ≤ 8) (hdig : ∀ c ∈ pin, 48 ≤ c ∧ c ≤ 57) :
    securid_pin_format_ok pin = SecuridErr.none := by
  unfold securid_pin_format_ok
  split
  next hcond =>
    exfalso
    simp only [MIN_PIN, MAX_PIN, Bool.or_eq_true, decide_eq_true_eq] at hcond
    omega
  next =>
    split
    next hany =>
      exfalso
      rw [List.any_eq_true] at hany
      obtain ⟨c, hc, hcd⟩ := hany
      have hd := hdig c hc
      have hdg : c_isdigit c = true := by
        unfold c_isdigit
        rw [decide_eq_true hd.1, decide_eq_true hd.2]
        rfl
      rw [hdg] at hcd
      exact absurd hcd (by decide)
    next => rfl

/-- C6: for every PIN of 4–8 decimal digits, every password, and every
16-byte random IV, `securid_encrypt_pin` returns a 64-character
lowercase-hex string (the hex of IV ‖ ciphertext), and
`securid_decrypt_pin` applied to it with the same password succeeds and
returns the original PIN. -/
theorem c6_pin_round_trip (aes aesdec : List Nat → List Nat → List Nat)
    (hg : GoodCipher aes) (hinv : CipherInverse aes aesdec)
    (iv pin password pin0 : List Nat)
    (hivlen : iv.length = 16) (hivb : ∀ x ∈ iv, x < 256)
    (hpin4 : 4 ≤ pin.length) (hpin8 : pin.length ≤ 8)
    (hdig : ∀ c ∈ pin, 48 ≤ c ∧ c ≤ 57) :
    ∃ e, securid_encrypt_pin aes iv pin password = some e ∧
      e.length = 64 ∧
      (∀ c ∈ e, (48 ≤ c ∧ c ≤ 57) ∨ (97 ≤ c ∧ c ≤ 102)) ∧
      securid_decrypt_pin aes aesdec e password pin0 = (SecuridErr.none, pin) := by
  have hfmt : securid_pin_format_ok pin = SecuridErr.none :=
    pin_format_ok_of pin hpin4 hpin8 hdig
  have hbufl : (pin ++ List.replicate (15 - pin.length) 0 ++ [pin.length]).length = 16 := by
    rw [List.length_append, List.length_append, List.length_replicate,
      List.length_singleton]
    omega
  have hbufb : ∀ x ∈ pin ++ List.replicate (15 - pin.length) 0 ++ [pin.length],
      x < 256 := by
    intro x hx
    rcases List.mem_append.mp hx with h | h
    · rcases List.mem_append.mp h with h2 | h2
      · have := hdig x h2
        omega
      · rw [(List.mem_replicate.mp h2).2]
        norm_num
    · rw [List.mem_singleton.mp h]
      omega
  have hXl : (List.zipWith Nat.xor
      (pin ++ List.replicate (15 - pin.length) 0 ++ [pin.length]) iv).length = 16 := by
    rw [List.length_zipWith, hbufl, hivlen, min_self]
  have hXb : ∀ x ∈ List.zipWith Nat.xor
      (pin ++ List.replicate (15 - pin.length) 0 ++ [pin.length]) iv, x < 256 :=
    zipWith_xor_lt _ _ hbufb hivb
  obtain ⟨hctl, hctb⟩ := hg (securid_mac aes password)
    (List.zipWith Nat.xor (pin ++ List.replicate (15 - pin.length) 0 ++ [pin.length]) iv)
  have henc : securid_encrypt_pin aes iv pin password =
      some (bytes_hex iv ++ bytes_hex (aes (securid_mac aes password)
        (List.zipWith Nat.xor
          (pin ++ List.replicate (15 - pin.length) 0 ++ [pin.length]) iv))) := by
    simp only [securid_encrypt_pin]
    rw [if_neg (show ¬(securid_pin_format_ok pin ≠ SecuridErr.none) from by
      rw [hfmt]
      exact fun hne => hne rfl)]
  refine ⟨_, henc, ?_, ?_, ?_⟩
  · rw [List.length_append, bytes_hex_length, bytes_hex_length, hivlen, hctl]
  · intro c hc
    rcases List.mem_append.mp hc with h | h
    · exact bytes_hex_hexchars iv c h
    · exact bytes_hex_hexchars _ c h
  · simp only [securid_decrypt_pin]
    rw [if_neg (show ¬((bytes_hex iv ++ bytes_hex (aes (securid_mac aes password)
        (List.zipWith Nat.xor
          (pin ++ List.replicate (15 - pin.length) 0 ++ [pin.length]) iv))).length ≠
        AES_BLOCK_SIZE * 2 * 2) from by
      rw [List.length_append, bytes_hex_length, bytes_hex_length, hivlen, hctl]
      exact fun hne => hne rfl)]
    rw [hex_parse_iv iv _ hivlen hivb, hex_parse_ct iv _ hivlen hctl hctb,
      hinv (securid_mac aes password) _ hXl hXb,
      zipWith_xor_cancel _ _ (le_of_eq (by rw [hbufl, hivlen]))]
    have hTW : (pin ++ List.replicate (15 - pin.length) 0 ++
        [pin.length]).takeWhile (fun c => c ≠ 0) = pin := by
      rw [List.append_assoc, show 15 - pin.length = (14 - pin.length) + 1 from by omega,
        List.replicate_succ, List.cons_append]
      exact takeWhile_ne_zero pin _ (fun c hc => by
        have := hdig c hc
        omega)
    rw [hTW]
    have hg14 : (pin ++ List.replicate (15 - pin.length) 0 ++
        [pin.length]).getD 14 0 = 0 := by
      rw [List.getD_append _ _ _ _ (by
          rw [List.length_append, List.length_replicate]
          omega),
        List.getD_append_right _ _ _ _ (by omega), getD_replicate_zero]
    have hg15 : (pin ++ List.replicate (15 - pin.length) 0 ++
        [pin.length]).getD 15 0 = pin.length := by
      rw [List.getD_append_right _ _ _ _ (by
          rw [List.length_append, List.length_replicate]
          omega),
        List.length_append, List.length_replicate,
        show 15 - (pin.length + (15 - pin.length)) = 0 from by omega,
        List.getD_cons_zero]
    rw [hg14, hg15]
    simp [hfmt]

theorem c6_pin_round_trip_witness :
    ∃ e, securid_encrypt_pin toyEnc (List.range 16) [49, 50, 51, 52] [] = some e ∧
      e.length = 64 ∧
      (∀ c ∈ e, (48 ≤ c ∧ c ≤ 57) ∨ (97 ≤ c ∧ c ≤ 102)) ∧
      securid_decrypt_pin toyEnc toyDec e [] [] = (SecuridErr.none, [49, 50, 51, 52]) :=
  c6_pin_round_trip toyEnc toyDec toyEnc_good toy_inverse (List.range 16)
    [49, 50, 51, 52] [] [] (by decide) (by decide) (by decide) (by decide) (by decide)

/-! ## C9: mutation on error paths -/

set_option maxRecDepth 100000 in
/-- C9 (counterexample): a version-'2' string of the right length whose
checksum fails makes `securid_decode_token` return an error *after*
having already zeroed the caller's record (the `memset` at line 213
precedes the checksum comparison), so the caller's record is not left
unchanged. -/
theorem c9_counterexample :
    (securid_decode_token toyEnc (50 :: List.replicate 80 49)
      { zeroToken with serial := [49] }).1 = SecuridErr.checksum_failed ∧
    (securid_decode_token toyEnc (50 :: List.replicate 80 49)
      { zeroToken with serial := [49] }).2 ≠ { zeroToken with serial := [49] } := by
  decide

/-- C9 (amended): `securid_decrypt_pin` is atomic — on every error the
caller's PIN buffer is returned unchanged.  `securid_decode_token`
leaves the caller's record unchanged on `bad_len` and `token_version`,
but on `checksum_failed` it has already zeroed the record.
`securid_decrypt_seed` leaves every field but `dec_seed` unchanged on
error, but when the seed-hash verification fails the decrypted
`dec_seed` has already been written (line 309 writes it before the
verification at line 313). -/
theorem c9_error_mutation (aes aesdec : List Nat → List Nat → List Nat)
    (input : List Nat) (t : SecuridToken) (pass devid : Option (List Nat))
    (enc_pin password pin : List Nat) :
    ((securid_decode_token aes input t).1 = SecuridErr.bad_len ∨
       (securid_decode_token aes input t).1 = SecuridErr.token_version →
       (securid_decode_token aes input t).2 = t) ∧
    ((securid_decode_token aes input t).1 = SecuridErr.checksum_failed →
       (securid_decode_token aes input t).2 = zeroToken) ∧
    ((securid_decrypt_seed aes aesdec t pass devid).1 ≠ SecuridErr.none →
       { (securid_decrypt_seed aes aesdec t pass devid).2 with
         dec_seed := t.dec_seed } = t) ∧
    ((securid_decrypt_pin aes aesdec enc_pin password pin).1 ≠ SecuridErr.none →
       (securid_decrypt_pin aes aesdec enc_pin password pin).2 = pin) := by
  refine ⟨?_, ?_, ?_, ?_⟩
  · simp only [securid_decode_token]
    split
    · intro h
      rfl
    · split
      · intro h
        rfl
      · split
        · intro h
          rcases h with h | h <;> exact SecuridErr.noConfusion h
        · intro h
          rcases h with h | h <;> exact SecuridErr.noConfusion h
  · simp only [securid_decode_token]
    split
    · intro h
      exact SecuridErr.noConfusion h
    · split
      · intro h
        exact SecuridErr.noConfusion h
      · split
        · intro h
          rfl
        · intro h
          exact SecuridErr.noConfusion h
  · simp only [securid_decrypt_seed]
    split
    · intro h
      rfl
    · split
      · intro h
        rfl
      · split
        · intro h
          rfl
        · split
          · intro h
            rfl
          · split
            · intro h
              rfl
            · intro h
              exact absurd rfl h
  · simp only [securid_decrypt_pin]
    split
    · intro h
      rfl
    · split
      · intro h
        rfl
      · split
        · intro h
          rfl
        · intro h
          exact absurd rfl h

theorem c9_error_mutation_witness :
    (securid_decode_token toyEnc (50 :: List.replicate 80 49) sampleToken).2 =
      zeroToken ∧
    (securid_decrypt_pin toyEnc toyDec [] [] [49, 50, 51, 52]).2 = [49, 50, 51, 52] :=
  ⟨(c9_error_mutation toyEnc toyDec (50 :: List.replicate 80 49) sampleToken none none
      [] [] [49, 50, 51, 52]).2.1 (by decide),
   (c9_error_mutation toyEnc toyDec (50 :: List.replicate 80 49) sampleToken none none
      [] [] [49, 50, 51, 52]).2.2.2 (by decide)⟩
